import Mathlib

set_option maxRecDepth 16384

/-!
Verification of the go-verkle repository core against its specification.

The development shallowly embeds the Go sources:
* `src/encoding.go` (node deserialization: `ParseNode`, `createInternalNode`,
  `parseLeafNode`, `parseHashedNode`, `indicesFromBitlist`), together with the
  external go-ethereum helpers it calls (`rlp.Split`, `rlp.SplitString`,
  `rlp.SplitList`, `rlp.CountValues` from rlp/raw.go, and `common.BytesToHash`).
* The tree engine (`tree.go`: `Insert`, `InsertOrdered`, `Get`,
  `ComputeCommitment`, `Serialize`, `hashToFr`) is not present under `src/`
  (only its tests and callers are), so those operations are modelled from the
  specification; each such definition carries a doc comment starting with
  `Modelled from the spec:`.

Bytes are `Nat` (values < 256 where relevant); byte strings are `List Nat`.
-/

namespace Verkle

/-- RLP value kinds, mirroring go-ethereum rlp.Kind (`Byte`, `String`, `List`). -/
inductive Kind where
  | byte : Kind
  | str : Kind
  | list : Kind
deriving DecidableEq

/-- Errors produced by the embedded code paths.  `eof` is io.ErrUnexpectedEOF,
`canonSize` is rlp.ErrCanonSize, `valueTooLarge` is rlp.ErrValueTooLarge,
`expectedString`/`expectedList` are rlp.ErrExpectedString/ErrExpectedList, and
`invalidEncoding` is the `ErrInvalidNodeEncoding` error of encoding.go. -/
inductive Err where
  | eof : Err
  | canonSize : Err
  | valueTooLarge : Err
  | expectedString : Err
  | expectedList : Err
  | invalidEncoding : Err
deriving DecidableEq

namespace Rlp

/-- go-ethereum rlp/raw.go `readSize(b, slen)`: reads `slen` big-endian bytes.
The Go switch only covers `slen` in 1..8 (leaving `s = 0` otherwise), and it
rejects non-canonical sizes (`s < 56` or a leading zero byte). -/
def readSize (b : List Nat) (slen : Nat) : Except Err Nat :=
  if b.length < slen then .error .eof
  else
    let s := if slen ≤ 8 then (b.take slen).foldl (fun acc x => acc * 256 + x) 0 else 0
    if s < 56 ∨ b.headD 0 = 0 then .error .canonSize else .ok s

/-- The tag dispatch of go-ethereum rlp/raw.go `readKind(buf)`: returns the
kind, tag size and content size read from the first byte. -/
def readKindTag (buf : List Nat) : Except Err (Kind × Nat × Nat) :=
  match buf with
  | [] => .error .eof
  | b :: _ =>
    if b < 0x80 then .ok (.byte, 0, 1)
    else if b < 0xB8 then
      -- reject strings that should have been single bytes
      if b - 0x80 = 1 ∧ (buf.drop 1).headD 0x80 < 128 then .error .canonSize
      else .ok (.str, 1, b - 0x80)
    else if b < 0xC0 then
      match readSize (buf.drop 1) (b - 0xB7) with
      | .error e => .error e
      | .ok cs => .ok (.str, (b - 0xB7) + 1, cs)
    else if b < 0xF8 then .ok (.list, 1, b - 0xC0)
    else
      match readSize (buf.drop 1) (b - 0xF7) with
      | .error e => .error e
      | .ok cs => .ok (.list, (b - 0xF7) + 1, cs)

/-- go-ethereum rlp/raw.go `readKind(buf)`: tag dispatch followed by the check
that the content does not overrun the buffer. -/
def readKind (buf : List Nat) : Except Err (Kind × Nat × Nat) :=
  match readKindTag buf with
  | .error e => .error e
  | .ok (k, ts, cs) =>
    if buf.length - ts < cs then .error .valueTooLarge else .ok (k, ts, cs)

/-- go-ethereum rlp.Split: content and rest of the first value of `b`. -/
def split (b : List Nat) : Except Err (Kind × List Nat × List Nat) :=
  match readKind b with
  | .error e => .error e
  | .ok (k, ts, cs) => .ok (k, (b.drop ts).take cs, b.drop (ts + cs))

/-- go-ethereum rlp.SplitString: like `split` but rejects lists. -/
def splitString (b : List Nat) : Except Err (List Nat × List Nat) :=
  match split b with
  | .error e => .error e
  | .ok (k, content, rest) =>
    if k = .list then .error .expectedString else .ok (content, rest)

/-- go-ethereum rlp.SplitList: like `split` but accepts only lists. -/
def splitList (b : List Nat) : Except Err (List Nat × List Nat) :=
  match split b with
  | .error e => .error e
  | .ok (k, content, rest) =>
    if k ≠ .list then .error .expectedList else .ok (content, rest)

/-- Fuelled loop of go-ethereum rlp.CountValues.  Each iteration consumes at
least one byte, so fuel `b.length` (as used by `countValues`) never runs out;
the fuel only makes the recursion structural. -/
def countValuesAux (fuel : Nat) (b : List Nat) : Except Err Nat :=
  match b with
  | [] => .ok 0
  | _ =>
    match fuel with
    | 0 => .error .eof
    | fuel + 1 =>
      match readKind b with
      | .error e => .error e
      | .ok (_, ts, cs) =>
        match countValuesAux fuel (b.drop (ts + cs)) with
        | .error e => .error e
        | .ok n => .ok (n + 1)

/-- go-ethereum rlp.CountValues: the number of encoded values in `b`. -/
def countValues (b : List Nat) : Except Err Nat := countValuesAux b.length b

end Rlp

/-- go-ethereum common.BytesToHash / Hash.SetBytes: crop to the last 32 bytes
when longer, left-pad with zero bytes when shorter. -/
def bytesToHash (b : List Nat) : List Nat :=
  let c := if 32 < b.length then b.drop (b.length - 32) else b
  List.replicate (32 - c.length) 0 ++ c

/-- The three node variants of the tree, as built by deserialization.
`internal` holds the ordered child-slot list (1024 slots for width 10, the
width used throughout the repository); commitment caches are not part of the
deserialized structure. -/
inductive PNode where
  | hashed (hash : List Nat) : PNode
  | leaf (key value : List Nat) : PNode
  | internal (children : List (Option PNode)) : PNode

/-- encoding.go `parseHashedNode`. -/
def parseHashedNode (raw : List Nat) : Except Err PNode :=
  match Rlp.splitString raw with
  | .error e => .error e
  | .ok (h, _) => .ok (.hashed (bytesToHash h))

/-- encoding.go `parseLeafNode`. -/
def parseLeafNode (raw : List Nat) : Except Err PNode :=
  match Rlp.splitString raw with
  | .error e => .error e
  | .ok (key, rest) =>
    match Rlp.splitString rest with
    | .error e => .error e
    | .ok (value, _) => .ok (.leaf key value)

/-- encoding.go `indicesFromBitlist`, with the running byte position `i` made
explicit: bit `j` (least significant first) of byte `i` contributes slot index
`i*8 + j`; zero bytes are skipped. -/
def indicesFromBitlistAux (i : Nat) : List Nat → List Nat
  | [] => []
  | b :: rest =>
    (if b &&& 0xff = 0 then []
     else ((List.range 8).filter (fun j => b &&& (1 <<< j) = 1 <<< j)).map
       (fun j => i * 8 + j)) ++ indicesFromBitlistAux (i + 1) rest

/-- encoding.go `indicesFromBitlist`. -/
def indicesFromBitlist (bitlist : List Nat) : List Nat :=
  indicesFromBitlistAux 0 bitlist

/-- The empty child array of `newInternalNode` at width 10 (1024 slots). -/
def emptyChildren : List (Option PNode) := List.replicate 1024 none

/-- The loop body of encoding.go `createInternalNode`: for each bitlist index,
split one child from `raw`; a child with one element is parsed as a hashed
node, one with two elements as a leaf; any other count is skipped silently. -/
def goChildren : List Nat → List Nat → List (Option PNode) →
    Except Err (List (Option PNode))
  | [], _, acc => .ok acc
  | index :: idxs, raw, acc =>
    match Rlp.splitList raw with
    | .error e => .error e
    | .ok (el, rest) =>
      match Rlp.countValues el with
      | .error e => .error e
      | .ok c =>
        match c with
        | 1 =>
          match parseHashedNode el with
          | .error e => .error e
          | .ok hn => goChildren idxs rest (acc.set index (some hn))
        | 2 =>
          match parseLeafNode el with
          | .error e => .error e
          | .ok ln => goChildren idxs rest (acc.set index (some ln))
        | _ => goChildren idxs rest acc

/-- encoding.go `createInternalNode`. -/
def createInternalNode (bitlist : List Nat) (raw : List Nat) : Except Err PNode :=
  match goChildren (indicesFromBitlist bitlist) raw emptyChildren with
  | .error e => .error e
  | .ok ch => .ok (.internal ch)

/-- encoding.go `ParseNode`. -/
def ParseNode (serialized : List Nat) : Except Err PNode :=
  match Rlp.splitList serialized with
  | .error e => .error e
  | .ok (elems, _) =>
    match Rlp.countValues elems with
    | .error e => .error e
    | .ok c =>
      if c = 1 then parseHashedNode elems
      else if c = 2 then
        match Rlp.split elems with
        | .error e => .error e
        | .ok (kind, first, rest) =>
          if kind ≠ .str then .error .invalidEncoding
          else if first.length = 32 then
            match Rlp.splitString rest with
            | .error e => .error e
            | .ok (value, _) => .ok (.leaf first value)
          else if first.length = 128 then
            match Rlp.splitList rest with
            | .error e => .error e
            | .ok (children, _) => createInternalNode first children
          else .error .invalidEncoding
      else .error .invalidEncoding

/-- Concrete input for the C1 witness: the leaf encoding
`[key = 32 bytes of 0xAA, value = "a"]`. -/
def c1wInput : List Nat := [0xE2, 0xA0] ++ List.replicate 32 0xAA ++ [0x61]

/-- Full case analysis of `ParseNode` over the shape of its input, used to
settle C1.  Each conjunct fixes the outcome of `ParseNode` from the outcomes
of the RLP-splitting primitives it calls. -/
def ParseNodeShapeSpec (s : List Nat) : Prop :=
  (∀ el r h r2, Rlp.splitList s = .ok (el, r) → Rlp.countValues el = .ok 1 →
      Rlp.splitString el = .ok (h, r2) →
      ParseNode s = .ok (.hashed (bytesToHash h))) ∧
  (∀ el r e, Rlp.splitList s = .ok (el, r) → Rlp.countValues el = .ok 1 →
      Rlp.splitString el = .error e → ParseNode s = .error e) ∧
  (∀ el r first rest v r2, Rlp.splitList s = .ok (el, r) →
      Rlp.countValues el = .ok 2 → Rlp.split el = .ok (.str, first, rest) →
      first.length = 32 → Rlp.splitString rest = .ok (v, r2) →
      ParseNode s = .ok (.leaf first v)) ∧
  (∀ el r first rest e, Rlp.splitList s = .ok (el, r) →
      Rlp.countValues el = .ok 2 → Rlp.split el = .ok (.str, first, rest) →
      first.length = 32 → Rlp.splitString rest = .error e →
      ParseNode s = .error e) ∧
  (∀ el r first rest children r2, Rlp.splitList s = .ok (el, r) →
      Rlp.countValues el = .ok 2 → Rlp.split el = .ok (.str, first, rest) →
      first.length = 128 → Rlp.splitList rest = .ok (children, r2) →
      ParseNode s = createInternalNode first children ∧
        ∀ n, createInternalNode first children = .ok n →
          ∃ ch, n = .internal ch) ∧
  (∀ el r first rest e, Rlp.splitList s = .ok (el, r) →
      Rlp.countValues el = .ok 2 → Rlp.split el = .ok (.str, first, rest) →
      first.length = 128 → Rlp.splitList rest = .error e →
      ParseNode s = .error e) ∧
  (∀ el r kind first rest, Rlp.splitList s = .ok (el, r) →
      Rlp.countValues el = .ok 2 → Rlp.split el = .ok (kind, first, rest) →
      kind ≠ .str → ParseNode s = .error .invalidEncoding) ∧
  (∀ el r first rest, Rlp.splitList s = .ok (el, r) →
      Rlp.countValues el = .ok 2 → Rlp.split el = .ok (.str, first, rest) →
      first.length ≠ 32 → first.length ≠ 128 →
      ParseNode s = .error .invalidEncoding) ∧
  (∀ el r c, Rlp.splitList s = .ok (el, r) → Rlp.countValues el = .ok c →
      c ≠ 1 → c ≠ 2 → ParseNode s = .error .invalidEncoding) ∧
  (∀ el r e, Rlp.splitList s = .ok (el, r) → Rlp.countValues el = .error e →
      ParseNode s = .error e) ∧
  (∀ e, Rlp.splitList s = .error e → ParseNode s = .error e)

/-- Minimal big-endian byte representation of `n` (empty for 0).  The fuel
argument only makes the recursion structural; `n` itself bounds the digit
count, so `beBytes` below never exhausts it. -/
def beBytesAux (fuel n : Nat) : List Nat :=
  match fuel with
  | 0 => []
  | fuel + 1 => if n = 0 then [] else beBytesAux fuel (n / 256) ++ [n % 256]

/-- Minimal big-endian bytes of `n`. -/
def beBytes (n : Nat) : List Nat := beBytesAux n n

/-- Modelled from the spec: RLP string encoding, the inverse of the
go-ethereum `rlp.SplitString` used by `ParseNode`.  The `Serialize` methods of
tree.go are not under src/; the encoder follows §4.E's length-prefixed wire
format (canonical RLP: a single byte below 0x80 stands for itself, short
strings get a `0x80 + len` tag, long strings a `0xB7 + lenlen` tag and a
minimal big-endian length). -/
def encodeString (s : List Nat) : List Nat :=
  if s.length = 1 ∧ s.headD 0 < 0x80 then s
  else if s.length < 56 then (0x80 + s.length) :: s
  else (0xB7 + (beBytes s.length).length) :: (beBytes s.length ++ s)

/-- Modelled from the spec: RLP list encoding of an already-encoded payload,
the inverse of `rlp.SplitList`. -/
def encodeList (payload : List Nat) : List Nat :=
  if payload.length < 56 then (0xC0 + payload.length) :: payload
  else (0xF7 + (beBytes payload.length).length) :: (beBytes payload.length ++ payload)

/-- Modelled from the spec: byte `i` of an internal node's occupancy bitmap —
bit `j` (least significant first) is set iff slot `8*i + j` is occupied. -/
def byteOfSlots (cs : List (Option PNode)) (i : Nat) : Nat :=
  ((List.range 8).map
    (fun j => cond (cs.getD (8 * i + j) none).isSome (1 <<< j) 0)).sum

/-- Modelled from the spec: the 128-byte occupancy bitmap of an internal
node's 1024 child slots. -/
def bitlistOf (cs : List (Option PNode)) : List Nat :=
  (List.range 128).map (byteOfSlots cs)

mutual

/-- Modelled from the spec: the list body of a node's serialization (§4.E):
`[hash]` for hashed nodes, `[key, value]` for leaves, and
`[bitlist, children-list]` for internal nodes, children in increasing slot
order. -/
def childContent : PNode → List Nat
  | .hashed h => encodeString h
  | .leaf k v => encodeString k ++ encodeString v
  | .internal cs =>
      encodeString (bitlistOf cs) ++ encodeList (serializeChildren cs)

/-- Modelled from the spec: the concatenated encodings of the occupied
children, in slot order. -/
def serializeChildren : List (Option PNode) → List Nat
  | [] => []
  | none :: cs => serializeChildren cs
  | some c :: cs => encodeList (childContent c) ++ serializeChildren cs

end

/-- Modelled from the spec: node serialization — the list body wrapped in a
list header. -/
def serializeNode (n : PNode) : List Nat := encodeList (childContent n)

/-- A child that serializes into a shape `createInternalNode` can read back:
a leaf (with Go-side length bounds on key and value) or a 32-byte hash stub.
Internal children are excluded — they do not survive the round trip (see the
C4 counterexample). -/
def FlatChild : PNode → Prop
  | .leaf k v => k.length < 2 ^ 64 ∧ v.length < 2 ^ 64
  | .hashed h => h.length = 32
  | .internal _ => False

/-- The occupied slot numbers of a child array, in increasing order. -/
def occupiedSlots (cs : List (Option PNode)) : List Nat :=
  (List.range cs.length).filter (fun j => (cs.getD j none).isSome)

/-- Concrete node for the C4 counterexample: an internal node whose slot 0
holds a nested (empty) internal node. -/
def c4bad : PNode := .internal (emptyChildren.set 0 (some (.internal emptyChildren)))

/-- Iterated list splitting: `SplitsInto raw els` states that the successive
child sub-elements split off the front of `raw` by `rlp.SplitList` have the
contents `els` (bytes after the last listed element are unconstrained, as the
`createInternalNode` loop never looks at them). -/
inductive SplitsInto : List Nat → List (List Nat) → Prop where
  | nil (raw : List Nat) : SplitsInto raw []
  | cons {raw el rest : List Nat} {els : List (List Nat)} :
      Rlp.splitList raw = .ok (el, rest) → SplitsInto rest els →
      SplitsInto raw (el :: els)

/-- A well-formed child sub-element as consumed by `createInternalNode`:
either a one-element child parsed as a hashed node or a two-element child
parsed as a leaf. -/
def ChildOk (el : List Nat) (p : PNode) : Prop :=
  (Rlp.countValues el = .ok 1 ∧ parseHashedNode el = .ok p) ∨
  (Rlp.countValues el = .ok 2 ∧ parseLeafNode el = .ok p)

/-- Writing the parsed children into their slots, one slot index per node, in
order: the accumulated effect of the `createInternalNode` loop. -/
def setAll : List (Option PNode) → List Nat → List PNode → List (Option PNode)
  | acc, i :: idxs, p :: ps => setAll (acc.set i (some p)) idxs ps
  | acc, _, _ => acc

/-- Conclusion of the C2 claim for a well-formed internal-node body: the slot
indices are exactly the set bits of the bitmap (bit `j` of byte `i`, least
significant first, marking slot `8*i + j`), produced strictly increasing, the
k-th child lands in the slot of the k-th set bit, and unmarked slots stay
empty. -/
def InternalAssignSpec (bl raw : List Nat) (ps : List PNode) : Prop :=
  (∀ n, n ∈ indicesFromBitlist bl ↔
      n < 8 * bl.length ∧ Nat.testBit (bl.getD (n / 8) 0) (n % 8)) ∧
  List.Pairwise (· < ·) (indicesFromBitlist bl) ∧
  ∃ ch, createInternalNode bl raw = .ok (.internal ch) ∧
    ch.length = 1024 ∧
    (∀ k, k < (indicesFromBitlist bl).length →
      ch.getD ((indicesFromBitlist bl).getD k 0) none =
        some (ps.getD k (.hashed []))) ∧
    (∀ j, j ∉ indicesFromBitlist bl → ch.getD j none = none)

/-- Bitlist for the C2 witness: slots 0 and 1 set. -/
def c2wBl : List Nat := 3 :: List.replicate 127 0

/-- Child payload for the C2 witness: a hashed child then a leaf child. -/
def c2wRaw : List Nat := [0xC2, 0x81, 0x80, 0xC2, 1, 2]

/-- Element contents of `c2wRaw`. -/
def c2wEls : List (List Nat) := [[0x81, 0x80], [1, 2]]

/-- Parsed children of `c2wRaw`. -/
def c2wPs : List PNode :=
  [.hashed (List.replicate 31 0 ++ [0x80]), .leaf [1] [2]]

/-- Concrete input for the C3 counterexample: a serialized internal node whose
bitlist marks slot 0 and whose single child sub-element is itself a serialized
internal node (128-byte zero bitlist, empty child list). -/
def c3input : List Nat :=
  [0xF9, 0x01, 0x09, 0xB8, 0x80, 0x01] ++ List.replicate 127 0 ++
    [0xF8, 0x85, 0xF8, 0x83, 0xB8, 0x80] ++ List.replicate 128 0 ++ [0xC0]

/-- The child sub-element content inside `c3input`: a two-element list whose
first element is a 128-byte string and whose second is a list. -/
def c3child : List Nat := [0xB8, 0x80] ++ List.replicate 128 0 ++ [0xC0]

/-- Concrete input for C9: a serialized internal node whose bitlist marks
slot 0 and whose single child sub-element is a three-element list. -/
def c9input : List Nat :=
  [0xF8, 0x87, 0xB8, 0x80, 0x01] ++ List.replicate 127 0 ++ [0xC4, 0xC3, 1, 2, 3]

/-- Modelled from the spec: tree nodes (§3).  `tree.go` is not under src/.
Internal nodes own 1024 child slots (width 10, the width of every test);
keys are 32-byte strings identified with their big-endian value below 2^256
(byte-wise lexicographic order on 32-byte strings is numeric order on the
values); a hashed node stores the scalar digest of a condensed subtree. -/
inductive VTree where
  | leaf (key : Nat) (value : List Nat) : VTree
  | hashed (h : Nat) : VTree
  | internal (children : List (Option VTree)) : VTree

/-- Modelled from the spec: the slot index of a key at depth `d` (§4.C): bits
`[10*d, 10*d + 10)` of the key, most significant bit first.  A 32-byte key
padded with four trailing zero bits has 260 bits, i.e. 26 base-1024 digits;
`key * 16` is that padded value. -/
def slotOf (key d : Nat) : Nat := key * 16 / 1024 ^ (25 - d) % 1024

/-- Modelled from the spec: the failure modes of the insert engine (§7).
`valueNotPresent` is the `errValueNotPresent` sentinel of `Get`;
`condensedSubtree` is the opacity failure when descending into a hashed
stub. -/
inductive TErr where
  | depthExceeded : TErr
  | insertIntoHashed : TErr
  | valueNotPresent : TErr
  | condensedSubtree : TErr
deriving DecidableEq

/-- The empty child array of a fresh width-10 internal node. -/
def emptySlots : List (Option VTree) := List.replicate 1024 none

/-- Modelled from the spec: `Insert` (§4.C) acting on the child array of an
internal node at depth `d`.  An empty slot takes a fresh leaf; a leaf with the
same key is overwritten; a leaf with a different key is pushed into a fresh
internal node one level deeper, re-inserting the old leaf first; an internal
child recurses; a hashed child cannot absorb a write.  The fuel is the
remaining level budget (26 levels for width 10); exhausting it is the
`DepthExceeded` failure. -/
def insertRec (fuel : Nat) (d : Nat) (cs : List (Option VTree)) (key : Nat)
    (value : List Nat) : Except TErr (List (Option VTree)) :=
  match fuel with
  | 0 => .error .depthExceeded
  | fuel + 1 =>
    match cs.getD (slotOf key d) none with
    | none => .ok (cs.set (slotOf key d) (some (.leaf key value)))
    | some (.leaf k v) =>
      if k = key then .ok (cs.set (slotOf key d) (some (.leaf key value)))
      else
        match insertRec fuel (d + 1) emptySlots k v with
        | .error e => .error e
        | .ok ns =>
          match insertRec fuel (d + 1) ns key value with
          | .error e => .error e
          | .ok ns2 => .ok (cs.set (slotOf key d) (some (.internal ns2)))
    | some (.internal sub) =>
      match insertRec fuel (d + 1) sub key value with
      | .error e => .error e
      | .ok sub2 => .ok (cs.set (slotOf key d) (some (.internal sub2)))
    | some (.hashed _) => .error .insertIntoHashed

/-- Modelled from the spec: `Get` (§4.C) descending from depth `d`: an empty
slot or a leaf with a different key is `NotFound`; a hashed child is opaque
and cannot be descended. -/
def getRec (fuel : Nat) (d : Nat) (cs : List (Option VTree)) (key : Nat) :
    Except TErr (List Nat) :=
  match fuel with
  | 0 => .error .depthExceeded
  | fuel + 1 =>
    match cs.getD (slotOf key d) none with
    | none => .error .valueNotPresent
    | some (.leaf k v) => if k = key then .ok v else .error .valueNotPresent
    | some (.internal sub) => getRec fuel (d + 1) sub key
    | some (.hashed _) => .error .condensedSubtree

/-- Modelled from the spec: `Depth = ceil(256 / 10) = 26` levels (§3). -/
def treeDepth : Nat := 26

/-- Modelled from the spec: `Insert` on the root of a fresh-width-10 tree. -/
def Insert (cs : List (Option VTree)) (key : Nat) (value : List Nat) :
    Except TErr (List (Option VTree)) :=
  insertRec treeDepth 0 cs key value

/-- Modelled from the spec: `Get` on the root. -/
def Get (cs : List (Option VTree)) (key : Nat) : Except TErr (List Nat) :=
  getRec treeDepth 0 cs key

/-- Folding `Insert` over a list of key-value pairs, failing on the first
failing insertion. -/
def insertAll (kvs : List (Nat × List Nat)) (cs : List (Option VTree)) :
    Except TErr (List (Option VTree)) :=
  match kvs with
  | [] => .ok cs
  | (k, v) :: rest =>
    match Insert cs k v with
    | .error e => .error e
    | .ok cs2 => insertAll rest cs2

/-- The value stored by the most recent insertion of `key` in a key-value
sequence, if any. -/
def lastVal (kvs : List (Nat × List Nat)) (key : Nat) : Option (List Nat) :=
  match kvs with
  | [] => none
  | (k, v) :: rest =>
    match lastVal rest key with
    | some w => some w
    | none => if k = key then some v else none

/-- Structural well-formedness (§3, width 10): every internal node, at any
depth, owns exactly 1024 child slots.  Trees built by insertion from a fresh
root satisfy it. -/
inductive WFT : VTree → Prop where
  | leaf (k : Nat) (v : List Nat) : WFT (.leaf k v)
  | hashed (h : Nat) : WFT (.hashed h)
  | internal (cs : List (Option VTree)) (hlen : cs.length = 1024)
      (hch : ∀ c, some c ∈ cs → WFT c) : WFT (.internal cs)

/-- Well-formedness of a child array. -/
def WFC (cs : List (Option VTree)) : Prop :=
  cs.length = 1024 ∧ ∀ c, some c ∈ cs → WFT c

section TreeCommit

variable (commit : List Nat → Nat) (hashPoint : Nat → Nat)
variable (hashLeaf : Nat → List Nat → Nat)

mutual

/-- Modelled from the spec: the scalar hash of a node (§4.D), parametric in
the out-of-scope curve operations: `commit` maps the 1024 child scalars to a
commitment (the Lagrange-basis MSM), `hashPoint` hashes a commitment to a
scalar (compress, SHA-256, reduce mod the field), `hashLeaf` hashes a leaf's
key and value.  A hashed node returns its stored scalar directly.  Every
theorem below holds for all choices of these three functions. -/
def nodeHash : VTree → Nat
  | .leaf k v => hashLeaf k v
  | .hashed h => h
  | .internal cs => hashPoint (commit (childScalars cs))

/-- Modelled from the spec: the evaluation vector of an internal node — the
scalar hash of each child, zero in the empty slots. -/
def childScalars : List (Option VTree) → List Nat
  | [] => []
  | none :: cs => 0 :: childScalars cs
  | some t :: cs => nodeHash t :: childScalars cs

end

/-- The scalar contributed by one slot. -/
def scalarOfSlot : Option VTree → Nat
  | none => 0
  | some t => nodeHash commit hashPoint hashLeaf t

/-- Modelled from the spec: the root commitment — `ComputeCommitment` of the
root internal node, the MSM over its child scalars. -/
def rootComm (cs : List (Option VTree)) : Nat :=
  commit (childScalars commit hashPoint hashLeaf cs)

/-- Modelled from the spec: condensing a finalized child into a hashed stub
carrying its scalar hash (§4.C, ordered insertion). -/
def condenseChild : Option VTree → Option VTree
  | none => none
  | some t => some (.hashed (nodeHash commit hashPoint hashLeaf t))

/-- Condensing every slot strictly left of `i` (`j` is the index offset of
the current sublist). -/
def condenseLeftAux : Nat → Nat → List (Option VTree) → List (Option VTree)
  | _, _, [] => []
  | j, i, c :: cs =>
      (if j < i then condenseChild commit hashPoint hashLeaf c else c) ::
        condenseLeftAux (j + 1) i cs

/-- Condensing every slot strictly left of slot `i`. -/
def condenseLeft (cs : List (Option VTree)) (i : Nat) : List (Option VTree) :=
  condenseLeftAux commit hashPoint hashLeaf 0 i cs

/-- Modelled from the spec: `InsertOrdered` (§4.C): when the descent enters
slot `i`, every slot strictly to its left is final and is replaced by a
hashed node carrying the scalar hash of its subtree; insertion at slot `i`
then proceeds as in `Insert`, recursing with `InsertOrdered`.  Descending
into an already-condensed (hashed) slot — which is what an out-of-order key
does — fails. -/
def insertOrderedRec (fuel : Nat) (d : Nat) (cs : List (Option VTree))
    (key : Nat) (value : List Nat) : Except TErr (List (Option VTree)) :=
  match fuel with
  | 0 => .error .depthExceeded
  | fuel + 1 =>
    match (condenseLeft commit hashPoint hashLeaf cs (slotOf key d)).getD
        (slotOf key d) none with
    | none =>
        .ok ((condenseLeft commit hashPoint hashLeaf cs (slotOf key d)).set
          (slotOf key d) (some (.leaf key value)))
    | some (.leaf k v) =>
      if k = key then
        .ok ((condenseLeft commit hashPoint hashLeaf cs (slotOf key d)).set
          (slotOf key d) (some (.leaf key value)))
      else
        match insertOrderedRec fuel (d + 1) emptySlots k v with
        | .error e => .error e
        | .ok ns =>
          match insertOrderedRec fuel (d + 1) ns key value with
          | .error e => .error e
          | .ok ns2 =>
              .ok ((condenseLeft commit hashPoint hashLeaf cs (slotOf key d)).set
                (slotOf key d) (some (.internal ns2)))
    | some (.internal sub) =>
      match insertOrderedRec fuel (d + 1) sub key value with
      | .error e => .error e
      | .ok sub2 =>
          .ok ((condenseLeft commit hashPoint hashLeaf cs (slotOf key d)).set
            (slotOf key d) (some (.internal sub2)))
    | some (.hashed _) => .error .insertIntoHashed

/-- Modelled from the spec: `InsertOrdered` on the root. -/
def InsertOrdered (cs : List (Option VTree)) (key : Nat) (value : List Nat) :
    Except TErr (List (Option VTree)) :=
  insertOrderedRec commit hashPoint hashLeaf treeDepth 0 cs key value

/-- Folding `InsertOrdered` over a key-value sequence. -/
def insertOrderedAll (kvs : List (Nat × List Nat)) (cs : List (Option VTree)) :
    Except TErr (List (Option VTree)) :=
  match kvs with
  | [] => .ok cs
  | (k, v) :: rest =>
    match InsertOrdered commit hashPoint hashLeaf cs k v with
    | .error e => .error e
    | .ok cs2 => insertOrderedAll rest cs2

/-- The simulation relation behind C5: `SimT d m t t'` relates an
`Insert`-built subtree `t` rooted at depth `d` to its `InsertOrdered`-built
counterpart `t'` after the same strictly increasing insertions, the largest
key so far being `m`.  On `m`'s slot chain the two trees agree structurally
(`InsertOrdered` never condenses the slot it is descending into); strictly
left of the chain the ordered tree holds children with the same scalar hash
(possibly condensed to hashed stubs); strictly right of the chain both trees
are empty, because every key inserted so far is at most `m`. -/
inductive SimT : Nat → Nat → VTree → VTree → Prop where
  | leaf (d m : Nat) (k : Nat) (v : List Nat) (hk : k ≤ m)
      (hpath : ∀ e, e < d → slotOf k e = slotOf m e) :
      SimT d m (.leaf k v) (.leaf k v)
  | internal (d m : Nat) (cs cs' : List (Option VTree))
      (hlen : cs.length = 1024) (hlen' : cs'.length = 1024)
      (hleft : ∀ j, j < slotOf m d →
        (cs.getD j none = none ∧ cs'.getD j none = none) ∨
        (∃ u u', cs.getD j none = some u ∧ cs'.getD j none = some u' ∧
          nodeHash commit hashPoint hashLeaf u' =
            nodeHash commit hashPoint hashLeaf u))
      (hmidn : cs.getD (slotOf m d) none = none ↔
        cs'.getD (slotOf m d) none = none)
      (hmid : ∀ u u', cs.getD (slotOf m d) none = some u →
        cs'.getD (slotOf m d) none = some u' → SimT (d + 1) m u u')
      (hright : ∀ j, slotOf m d < j →
        cs.getD j none = none ∧ cs'.getD j none = none) :
      SimT d m (.internal cs) (.internal cs')

end TreeCommit

/-- Modelled from the spec: the BLS12-381 scalar-field modulus, carried by
the tree configuration and used during the hash-to-field reduction (§4.A,
§6). -/
def frModulus : Nat :=
  52435875175126190479447740508185965837690552500527637822603658699938581184513

/-- Little-endian value of a byte string (go-kzg interprets the 32-byte input
of `FrFrom32` little-endian). -/
def leVal (b : List Nat) : Nat := b.foldr (fun x acc => acc * 256 + x) 0

/-- The `w` low-order little-endian bytes of `n`. -/
def leBytes : Nat → Nat → List Nat
  | 0, _ => []
  | w + 1, n => n % 256 :: leBytes w (n / 256)

/-- Modelled from the spec: go-kzg `bls.FrFrom32` — canonical decoding of 32
little-endian bytes into the scalar field. -/
def frFrom32 (b : List Nat) : Nat := leVal b % frModulus

/-- Modelled from the spec: `hashToFr` (tree.go, not under src/) — reduce the
32-byte value modulo the scalar-field modulus and write the result back into
a fresh, zero-filled 32-byte little-endian buffer before decoding it as `Fr`;
the zero-filled buffer is what the trailing-zero regression test exercises. -/
def hashToFr (h : List Nat) : Nat := frFrom32 (leBytes 32 (leVal h % frModulus))

/-- The 32-byte test vector of `TestHashToFrTrailingZeroBytes`
(`c79e576e0f534a5bbed66b32e5022a9d624b4415779b369a62b2e7a6c3d8e000`). -/
def c8input : List Nat :=
  [0xc7, 0x9e, 0x57, 0x6e, 0x0f, 0x53, 0x4a, 0x5b, 0xbe, 0xd6, 0x6b, 0x32,
   0xe5, 0x02, 0x2a, 0x9d, 0x62, 0x4b, 0x44, 0x15, 0x77, 0x9b, 0x36, 0x9a,
   0x62, 0xb2, 0xe7, 0xa6, 0xc3, 0xd8, 0xe0, 0x00]

/-- A concrete commitment function for exercising the insertion-order
equivalence on a computed example. -/
def c5commit (l : List Nat) : Nat := l.foldl (fun a x => a * 3 + x + 1) 0

/-- A concrete point-hash function for the same example. -/
def c5hashPoint (n : Nat) : Nat := n + 7

/-- A concrete leaf-hash function for the same example. -/
def c5hashLeaf (k : Nat) (v : List Nat) : Nat :=
  k * 5 + v.foldl (fun a x => a + x) 0 + 1

/-- A strictly increasing two-key insertion sequence whose keys land in root
slots 0 and 16. -/
def c5kvs : List (Nat × List Nat) := [(0, [1]), (2 ^ 250, [2])]

/-- The root children produced by the plain insertions of `c5kvs`. -/
def c5ns : List (Option VTree) :=
  (insertAll c5kvs emptySlots).toOption.getD emptySlots

/-- The root children produced by the ordered insertions of `c5kvs`. -/
def c5ns' : List (Option VTree) :=
  (insertOrderedAll c5commit c5hashPoint c5hashLeaf c5kvs
    emptySlots).toOption.getD emptySlots

end Verkle

namespace Verkle

namespace Rlp

theorem readSize_length_le {b : List Nat} {slen n : Nat}
    (h : readSize b slen = .ok n) : slen ≤ b.length := by
  unfold readSize at h
  split at h
  · exact absurd h (by simp)
  · omega

theorem readKindTag_facts {buf : List Nat} {k : Kind} {ts cs : Nat}
    (h : readKindTag buf = .ok (k, ts, cs)) :
    1 ≤ ts + cs ∧ ts ≤ buf.length := by
  match buf with
  | [] => exact Except.noConfusion h
  | b :: rest =>
    simp only [readKindTag] at h
    by_cases h1 : b < 0x80
    · rw [if_pos h1] at h
      simp only [Except.ok.injEq, Prod.mk.injEq] at h
      obtain ⟨-, rfl, rfl⟩ := h
      simp
    rw [if_neg h1] at h
    by_cases h2 : b < 0xB8
    · rw [if_pos h2] at h
      by_cases h3 : b - 0x80 = 1 ∧ ((b :: rest).drop 1).headD 0x80 < 128
      · rw [if_pos h3] at h; exact Except.noConfusion h
      · rw [if_neg h3] at h
        simp only [Except.ok.injEq, Prod.mk.injEq] at h
        obtain ⟨-, rfl, rfl⟩ := h
        simp
    rw [if_neg h2] at h
    by_cases h4 : b < 0xC0
    · rw [if_pos h4] at h
      revert h
      split
      · intro h; exact Except.noConfusion h
      · rename_i cs0 hrs
        intro h
        simp only [Except.ok.injEq, Prod.mk.injEq] at h
        obtain ⟨-, rfl, rfl⟩ := h
        have := readSize_length_le hrs
        simp only [List.length_drop, List.length_cons] at this ⊢
        omega
    rw [if_neg h4] at h
    by_cases h5 : b < 0xF8
    · rw [if_pos h5] at h
      simp only [Except.ok.injEq, Prod.mk.injEq] at h
      obtain ⟨-, rfl, rfl⟩ := h
      simp
    rw [if_neg h5] at h
    revert h
    split
    · intro h; exact Except.noConfusion h
    · rename_i cs0 hrs
      intro h
      simp only [Except.ok.injEq, Prod.mk.injEq] at h
      obtain ⟨-, rfl, rfl⟩ := h
      have := readSize_length_le hrs
      simp only [List.length_drop, List.length_cons] at this ⊢
      omega

theorem readKind_facts {buf : List Nat} {k : Kind} {ts cs : Nat}
    (h : readKind buf = .ok (k, ts, cs)) :
    1 ≤ ts + cs ∧ ts + cs ≤ buf.length := by
  unfold readKind at h
  revert h
  split
  · intro h; exact Except.noConfusion h
  · rename_i k0 ts0 cs0 htag
    intro h
    split at h
    · exact Except.noConfusion h
    · rename_i hguard
      simp only [Except.ok.injEq, Prod.mk.injEq] at h
      obtain ⟨-, rfl, rfl⟩ := h
      have := readKindTag_facts htag
      omega

theorem readKind_nil : readKind ([] : List Nat) = .error .eof := rfl

theorem countValuesAux_congr :
    ∀ (n : Nat) (b : List Nat) (f₁ f₂ : Nat), b.length ≤ n →
      b.length ≤ f₁ → b.length ≤ f₂ → countValuesAux f₁ b = countValuesAux f₂ b := by
  intro n
  induction n with
  | zero =>
    intro b f₁ f₂ hn _ _
    have : b = [] := List.eq_nil_of_length_eq_zero (by omega)
    subst this
    simp [countValuesAux]
  | succ m ih =>
    intro b f₁ f₂ hn h1 h2
    match b with
    | [] => simp [countValuesAux]
    | x :: xs =>
      simp only [List.length_cons] at hn h1 h2
      match f₁, f₂ with
      | g₁ + 1, g₂ + 1 =>
        show countValuesAux (g₁ + 1) (x :: xs) = countValuesAux (g₂ + 1) (x :: xs)
        simp only [countValuesAux]
        cases hrk : readKind (x :: xs) with
        | error e => rfl
        | ok v =>
          obtain ⟨k, ts, cs⟩ := v
          have hf := readKind_facts hrk
          simp only [List.length_cons] at hf
          have hlen : ((x :: xs).drop (ts + cs)).length ≤ m := by
            simp only [List.length_drop, List.length_cons]
            omega
          dsimp only
          rw [ih ((x :: xs).drop (ts + cs)) g₁ g₂ hlen
            (by simp only [List.length_drop, List.length_cons]; omega)
            (by simp only [List.length_drop, List.length_cons]; omega)]

theorem countValues_step {b : List Nat} {k : Kind} {ts cs : Nat}
    (h : readKind b = .ok (k, ts, cs)) :
    countValues b =
      match countValues (b.drop (ts + cs)) with
      | .error e => .error e
      | .ok n => .ok (n + 1) := by
  match b with
  | [] => rw [readKind_nil] at h; exact absurd h (by simp)
  | x :: xs =>
    have hf := readKind_facts h
    simp only [List.length_cons] at hf
    show countValuesAux (xs.length + 1) (x :: xs) = _
    simp only [countValuesAux, h]
    have : countValuesAux xs.length ((x :: xs).drop (ts + cs)) =
        countValues ((x :: xs).drop (ts + cs)) := by
      apply countValuesAux_congr ((x :: xs).drop (ts + cs)).length
      · exact le_rfl
      · simp only [List.length_drop, List.length_cons]; omega
      · exact le_rfl
    rw [this]

theorem split_countValues {b : List Nat} {k : Kind} {content rest : List Nat}
    (h : split b = .ok (k, content, rest)) :
    countValues b =
      match countValues rest with
      | .error e => .error e
      | .ok n => .ok (n + 1) := by
  unfold split at h
  revert h
  split
  · intro h; exact absurd h (by simp)
  · rename_i k0 ts0 cs0 hrk
    intro h
    obtain ⟨rfl, rfl, rfl⟩ := by simpa using h
    exact countValues_step hrk

end Rlp

theorem headD_append_of_ne_nil {α : Type} {l : List α} (t : List α) (d : α)
    (h : l ≠ []) : (l ++ t).headD d = l.headD d := by
  cases l
  · exact absurd rfl h
  · rfl

theorem beBytesAux_congr : ∀ (n f f' : Nat), n ≤ f → n ≤ f' →
    beBytesAux f n = beBytesAux f' n := by
  intro n
  induction n using Nat.strong_induction_on with
  | _ n ih =>
    intro f f' hf hf'
    match f, f' with
    | 0, 0 => rfl
    | 0, g' + 1 =>
      have : n = 0 := by omega
      subst this
      rfl
    | g + 1, 0 =>
      have : n = 0 := by omega
      subst this
      rfl
    | g + 1, g' + 1 =>
      by_cases hn : n = 0
      · subst hn; rfl
      · show (if n = 0 then [] else beBytesAux g (n / 256) ++ [n % 256]) =
          (if n = 0 then [] else beBytesAux g' (n / 256) ++ [n % 256])
        rw [if_neg hn, if_neg hn]
        have hlt : n / 256 < n := Nat.div_lt_self (by omega) (by norm_num)
        rw [ih (n / 256) hlt g g' (by omega) (by omega)]

theorem beBytes_zero : beBytes 0 = [] := rfl

theorem beBytes_succ_eq {n : Nat} (hn : n ≠ 0) :
    beBytes n = beBytes (n / 256) ++ [n % 256] := by
  show beBytesAux n n = _
  match n, hn with
  | m + 1, _ =>
    show (if m + 1 = 0 then [] else beBytesAux m ((m + 1) / 256) ++ [(m + 1) % 256]) = _
    rw [if_neg (by omega)]
    have hlt : (m + 1) / 256 < m + 1 := Nat.div_lt_self (by omega) (by norm_num)
    rw [beBytesAux_congr ((m + 1) / 256) m ((m + 1) / 256) (by omega) le_rfl]
    rfl

theorem beBytes_foldl : ∀ (n a : Nat),
    (beBytes n).foldl (fun acc x => acc * 256 + x) a =
      a * 256 ^ (beBytes n).length + n := by
  intro n
  induction n using Nat.strong_induction_on with
  | _ n ih =>
    intro a
    by_cases hn : n = 0
    · subst hn
      simp [beBytes_zero]
    · rw [beBytes_succ_eq hn, List.foldl_append]
      have hlt : n / 256 < n := Nat.div_lt_self (by omega) (by norm_num)
      rw [ih (n / 256) hlt a]
      have hdm := Nat.div_add_mod n 256
      simp only [List.foldl_cons, List.foldl_nil, List.length_append,
        List.length_cons, List.length_nil]
      calc (a * 256 ^ (beBytes (n / 256)).length + n / 256) * 256 + n % 256
          = a * (256 ^ (beBytes (n / 256)).length * 256) +
              (256 * (n / 256) + n % 256) := by ring
        _ = a * 256 ^ ((beBytes (n / 256)).length + (0 + 1)) + n := by
              rw [hdm, Nat.zero_add, pow_succ]

theorem beBytes_pos_facts : ∀ (n : Nat), 1 ≤ n →
    beBytes n ≠ [] ∧ (beBytes n).headD 0 ≠ 0 := by
  intro n
  induction n using Nat.strong_induction_on with
  | _ n ih =>
    intro hn
    rw [beBytes_succ_eq (by omega)]
    by_cases h256 : n < 256
    · have h0 : n / 256 = 0 := Nat.div_eq_of_lt h256
      rw [h0, beBytes_zero, List.nil_append]
      refine ⟨by simp, ?_⟩
      have hm : n % 256 = n := Nat.mod_eq_of_lt h256
      simp only [List.headD_cons, hm]
      omega
    · have h1 : 1 ≤ n / 256 := by
        rw [Nat.le_div_iff_mul_le (by norm_num : (0:Nat) < 256)]
        omega
      obtain ⟨hne, hhd⟩ :=
        ih (n / 256) (Nat.div_lt_self (by omega) (by norm_num)) h1
      refine ⟨by simp, ?_⟩
      rw [headD_append_of_ne_nil [n % 256] 0 hne]
      exact hhd

theorem beBytes_length_le : ∀ (n k : Nat), n < 256 ^ k →
    (beBytes n).length ≤ k := by
  intro n
  induction n using Nat.strong_induction_on with
  | _ n ih =>
    intro k hk
    by_cases hn : n = 0
    · subst hn
      simp [beBytes_zero]
    · rw [beBytes_succ_eq hn]
      match k with
      | 0 =>
        simp only [pow_zero] at hk
        omega
      | k + 1 =>
        simp only [List.length_append, List.length_cons, List.length_nil]
        have hdiv : n / 256 < 256 ^ k := by
          rw [Nat.div_lt_iff_lt_mul (by norm_num : (0:Nat) < 256)]
          calc n < 256 ^ (k + 1) := hk
            _ = 256 ^ k * 256 := by rw [pow_succ]
        have := ih (n / 256) (Nat.div_lt_self (by omega) (by norm_num)) k hdiv
        omega

theorem readSize_eq (b : List Nat) (slen : Nat) (h : ¬ b.length < slen) :
    Rlp.readSize b slen =
      (if (if slen ≤ 8 then (b.take slen).foldl (fun acc x => acc * 256 + x) 0 else 0) < 56
          ∨ b.headD 0 = 0
       then .error .canonSize
       else .ok (if slen ≤ 8 then (b.take slen).foldl (fun acc x => acc * 256 + x) 0 else 0)) := by
  unfold Rlp.readSize
  rw [if_neg h]

theorem readSize_beBytes {n : Nat} (t : List Nat) (h56 : 56 ≤ n) (h64 : n < 2 ^ 64) :
    Rlp.readSize (beBytes n ++ t) (beBytes n).length = .ok n := by
  obtain ⟨hne, hhd⟩ := beBytes_pos_facts n (by omega)
  have hlen8 : (beBytes n).length ≤ 8 :=
    beBytes_length_le n 8 (by norm_num; omega)
  have hval : ((beBytes n ++ t).take (beBytes n).length).foldl
      (fun acc x => acc * 256 + x) 0 = n := by
    rw [List.take_left, beBytes_foldl]
    simp
  rw [readSize_eq _ _ (by simp [List.length_append])]
  rw [if_neg ?_]
  · rw [if_pos hlen8, hval]
  · rw [if_pos hlen8, hval, headD_append_of_ne_nil t 0 hne]
    push_neg
    exact ⟨by omega, hhd⟩

theorem readKind_byte {b : Nat} (hb : b < 0x80) (t : List Nat) :
    Rlp.readKind (b :: t) = .ok (.byte, 0, 1) := by
  unfold Rlp.readKind Rlp.readKindTag
  simp only
  rw [if_pos hb]
  simp

theorem readKind_shortStr {s : List Nat} (t : List Nat)
    (h1 : ¬(s.length = 1 ∧ s.headD 0 < 0x80)) (h56 : s.length < 56) :
    Rlp.readKind ((0x80 + s.length) :: (s ++ t)) = .ok (.str, 1, s.length) := by
  unfold Rlp.readKind Rlp.readKindTag
  simp only
  rw [if_neg (by omega), if_pos (by omega)]
  have hguard : ¬(0x80 + s.length - 0x80 = 1 ∧
      (((0x80 + s.length) :: (s ++ t)).drop 1).headD 0x80 < 128) := by
    rintro ⟨hl1, hhd⟩
    have hl1s : s.length = 1 := by omega
    apply h1
    refine ⟨hl1s, ?_⟩
    match s, hl1s with
    | [b], _ =>
      simpa using hhd
  rw [if_neg hguard]
  dsimp only
  have hsz : ¬(((0x80 + s.length) :: (s ++ t)).length - 1 < 0x80 + s.length - 0x80) := by
    simp only [List.length_cons, List.length_append]
    omega
  rw [if_neg hsz]
  have : 0x80 + s.length - 0x80 = s.length := by omega
  rw [this]

theorem readKind_longStr {s : List Nat} (t : List Nat)
    (h56 : 56 ≤ s.length) (h64 : s.length < 2 ^ 64) :
    Rlp.readKind ((0xB7 + (beBytes s.length).length) :: (beBytes s.length ++ (s ++ t))) =
      .ok (.str, (beBytes s.length).length + 1, s.length) := by
  obtain ⟨hne, _⟩ := beBytes_pos_facts s.length (by omega)
  have hL1 : 1 ≤ (beBytes s.length).length := by
    cases hbe : beBytes s.length
    · exact absurd hbe hne
    · simp
  have hL8 : (beBytes s.length).length ≤ 8 :=
    beBytes_length_le s.length 8 (by norm_num; omega)
  unfold Rlp.readKind Rlp.readKindTag
  simp only
  rw [if_neg (by omega), if_neg (by omega), if_pos (by omega)]
  have harg : 0xB7 + (beBytes s.length).length - 0xB7 = (beBytes s.length).length := by
    omega
  rw [List.drop_succ_cons, List.drop_zero, harg, readSize_beBytes (s ++ t) h56 h64]
  dsimp only
  have hsz : ¬(((0xB7 + (beBytes s.length).length) :: (beBytes s.length ++ (s ++ t))).length -
      ((beBytes s.length).length + 1) < s.length) := by
    simp only [List.length_cons, List.length_append]
    omega
  rw [if_neg hsz]

theorem readKind_shortList {p : List Nat} (t : List Nat) (h56 : p.length < 56) :
    Rlp.readKind ((0xC0 + p.length) :: (p ++ t)) = .ok (.list, 1, p.length) := by
  unfold Rlp.readKind Rlp.readKindTag
  simp only
  rw [if_neg (by omega), if_neg (by omega), if_neg (by omega), if_pos (by omega)]
  dsimp only
  have hsz : ¬(((0xC0 + p.length) :: (p ++ t)).length - 1 < 0xC0 + p.length - 0xC0) := by
    simp only [List.length_cons, List.length_append]
    omega
  rw [if_neg hsz]
  have : 0xC0 + p.length - 0xC0 = p.length := by omega
  rw [this]

theorem readKind_longList {p : List Nat} (t : List Nat)
    (h56 : 56 ≤ p.length) (h64 : p.length < 2 ^ 64) :
    Rlp.readKind ((0xF7 + (beBytes p.length).length) :: (beBytes p.length ++ (p ++ t))) =
      .ok (.list, (beBytes p.length).length + 1, p.length) := by
  obtain ⟨hne, _⟩ := beBytes_pos_facts p.length (by omega)
  have hL1 : 1 ≤ (beBytes p.length).length := by
    cases hbe : beBytes p.length
    · exact absurd hbe hne
    · simp
  have hL8 : (beBytes p.length).length ≤ 8 :=
    beBytes_length_le p.length 8 (by norm_num; omega)
  unfold Rlp.readKind Rlp.readKindTag
  simp only
  rw [if_neg (by omega), if_neg (by omega), if_neg (by omega), if_neg (by omega)]
  have harg : 0xF7 + (beBytes p.length).length - 0xF7 = (beBytes p.length).length := by
    omega
  rw [List.drop_succ_cons, List.drop_zero, harg, readSize_beBytes (p ++ t) h56 h64]
  dsimp only
  have hsz : ¬(((0xF7 + (beBytes p.length).length) :: (beBytes p.length ++ (p ++ t))).length -
      ((beBytes p.length).length + 1) < p.length) := by
    simp only [List.length_cons, List.length_append]
    omega
  rw [if_neg hsz]

theorem split_encodeString (s rest : List Nat) (hlen : s.length < 2 ^ 64) :
    Rlp.split (encodeString s ++ rest) =
      .ok ((if s.length = 1 ∧ s.headD 0 < 0x80 then Kind.byte else Kind.str), s, rest) := by
  by_cases h1 : s.length = 1 ∧ s.headD 0 < 0x80
  · obtain ⟨b, rfl⟩ : ∃ b, s = [b] := by
      match s, h1.1 with
      | [b], _ => exact ⟨b, rfl⟩
    have hb : b < 0x80 := by simpa using h1.2
    rw [if_pos h1]
    unfold encodeString
    rw [if_pos h1]
    show Rlp.split (b :: rest) = .ok (.byte, [b], rest)
    unfold Rlp.split
    rw [readKind_byte hb rest]
    rfl
  · rw [if_neg h1]
    by_cases h56 : s.length < 56
    · unfold encodeString
      rw [if_neg h1, if_pos h56]
      show Rlp.split ((0x80 + s.length) :: (s ++ rest)) = _
      unfold Rlp.split
      rw [readKind_shortStr rest h1 h56]
      dsimp only
      rw [List.drop_succ_cons, List.drop_zero, List.take_left,
        show 1 + s.length = s.length + 1 from by omega,
        List.drop_succ_cons, List.drop_left]
    · unfold encodeString
      rw [if_neg h1, if_neg h56, List.cons_append, List.append_assoc]
      unfold Rlp.split
      rw [readKind_longStr rest (by omega) hlen]
      dsimp only
      rw [List.drop_succ_cons, List.drop_left, List.take_left,
        show (beBytes s.length).length + 1 + s.length =
          ((beBytes s.length).length + s.length) + 1 from by omega,
        List.drop_succ_cons, ← List.drop_drop, List.drop_left, List.drop_left]

theorem split_encodeList (p rest : List Nat) (hlen : p.length < 2 ^ 64) :
    Rlp.split (encodeList p ++ rest) = .ok (.list, p, rest) := by
  by_cases h56 : p.length < 56
  · unfold encodeList
    rw [if_pos h56]
    show Rlp.split ((0xC0 + p.length) :: (p ++ rest)) = _
    unfold Rlp.split
    rw [readKind_shortList rest h56]
    dsimp only
    rw [List.drop_succ_cons, List.drop_zero, List.take_left,
      show 1 + p.length = p.length + 1 from by omega,
      List.drop_succ_cons, List.drop_left]
  · unfold encodeList
    rw [if_neg h56, List.cons_append, List.append_assoc]
    unfold Rlp.split
    rw [readKind_longList rest (by omega) hlen]
    dsimp only
    rw [List.drop_succ_cons, List.drop_left, List.take_left,
      show (beBytes p.length).length + 1 + p.length =
        ((beBytes p.length).length + p.length) + 1 from by omega,
      List.drop_succ_cons, ← List.drop_drop, List.drop_left, List.drop_left]

theorem splitString_encodeString (s rest : List Nat) (hlen : s.length < 2 ^ 64) :
    Rlp.splitString (encodeString s ++ rest) = .ok (s, rest) := by
  unfold Rlp.splitString
  rw [split_encodeString s rest hlen]
  dsimp only
  by_cases h1 : s.length = 1 ∧ s.headD 0 < 0x80
  · rw [if_pos h1, if_neg (by simp)]
  · rw [if_neg h1, if_neg (by simp)]

theorem splitList_encodeList (p rest : List Nat) (hlen : p.length < 2 ^ 64) :
    Rlp.splitList (encodeList p ++ rest) = .ok (p, rest) := by
  unfold Rlp.splitList
  rw [split_encodeList p rest hlen]
  dsimp only
  rw [if_neg (by simp)]

theorem countValues_nil : Rlp.countValues [] = .ok 0 := rfl

theorem countValues_encodeString (s t : List Nat) (hlen : s.length < 2 ^ 64) :
    Rlp.countValues (encodeString s ++ t) =
      match Rlp.countValues t with
      | .error e => .error e
      | .ok n => .ok (n + 1) :=
  Rlp.split_countValues (split_encodeString s t hlen)

theorem countValues_encodeList (p t : List Nat) (hlen : p.length < 2 ^ 64) :
    Rlp.countValues (encodeList p ++ t) =
      match Rlp.countValues t with
      | .error e => .error e
      | .ok n => .ok (n + 1) :=
  Rlp.split_countValues (split_encodeList p t hlen)

theorem encodeString_length_le (s : List Nat) (h : s.length < 2 ^ 64) :
    (encodeString s).length ≤ s.length + 9 := by
  unfold encodeString
  split_ifs with h1 h2
  · omega
  · simp only [List.length_cons]
    omega
  · have hL : (beBytes s.length).length ≤ 8 :=
      beBytes_length_le s.length 8 (by norm_num; omega)
    simp only [List.length_cons, List.length_append]
    omega

theorem encodeList_length_le (p : List Nat) (h : p.length < 2 ^ 64) :
    (encodeList p).length ≤ p.length + 9 := by
  unfold encodeList
  split_ifs with h1
  · simp only [List.length_cons]
    omega
  · have hL : (beBytes p.length).length ≤ 8 :=
      beBytes_length_le p.length 8 (by norm_num; omega)
    simp only [List.length_cons, List.length_append]
    omega

theorem countValues_encodeString_one (s : List Nat) (h : s.length < 2 ^ 64) :
    Rlp.countValues (encodeString s) = .ok 1 := by
  have hc := countValues_encodeString s [] h
  rw [List.append_nil] at hc
  rw [hc]
  rfl

theorem splitString_encodeString_nil (s : List Nat) (h : s.length < 2 ^ 64) :
    Rlp.splitString (encodeString s) = .ok (s, []) := by
  have hs := splitString_encodeString s [] h
  rwa [List.append_nil] at hs

theorem bytesToHash_spec (b : List Nat) :
    bytesToHash b =
      if b.length ≤ 32 then List.replicate (32 - b.length) 0 ++ b
      else b.drop (b.length - 32) := by
  by_cases hl : 32 < b.length
  · have hlen : (b.drop (b.length - 32)).length = 32 := by
      rw [List.length_drop]; omega
    show List.replicate (32 - (if 32 < b.length then b.drop (b.length - 32) else b).length) 0 ++
        (if 32 < b.length then b.drop (b.length - 32) else b) = _
    rw [if_pos hl, if_neg (by omega), hlen]
    simp
  · show List.replicate (32 - (if 32 < b.length then b.drop (b.length - 32) else b).length) 0 ++
        (if 32 < b.length then b.drop (b.length - 32) else b) = _
    rw [if_neg hl, if_pos (by omega)]

theorem bytesToHash_len32 {h : List Nat} (hh : h.length = 32) :
    bytesToHash h = h := by
  rw [bytesToHash_spec, if_pos (by omega), hh]
  simp

section ParseNodeCases

variable {s el r : List Nat}

theorem parseNode_splitList_err {e : Err} (hsl : Rlp.splitList s = .error e) :
    ParseNode s = .error e := by
  unfold ParseNode
  rw [hsl]

theorem parseNode_count_err {e : Err} (hsl : Rlp.splitList s = .ok (el, r))
    (hc : Rlp.countValues el = .error e) : ParseNode s = .error e := by
  unfold ParseNode
  rw [hsl]
  dsimp only
  rw [hc]

theorem parseNode_count_other {c : Nat} (hsl : Rlp.splitList s = .ok (el, r))
    (hc : Rlp.countValues el = .ok c) (h1 : c ≠ 1) (h2 : c ≠ 2) :
    ParseNode s = .error .invalidEncoding := by
  unfold ParseNode
  rw [hsl]
  dsimp only
  rw [hc]
  dsimp only
  rw [if_neg h1, if_neg h2]

theorem parseNode_one_ok {h r2 : List Nat} (hsl : Rlp.splitList s = .ok (el, r))
    (hc : Rlp.countValues el = .ok 1) (hss : Rlp.splitString el = .ok (h, r2)) :
    ParseNode s = .ok (.hashed (bytesToHash h)) := by
  unfold ParseNode
  rw [hsl]
  dsimp only
  rw [hc]
  dsimp only
  rw [if_pos rfl]
  unfold parseHashedNode
  rw [hss]

theorem parseNode_one_err {e : Err} (hsl : Rlp.splitList s = .ok (el, r))
    (hc : Rlp.countValues el = .ok 1) (hss : Rlp.splitString el = .error e) :
    ParseNode s = .error e := by
  unfold ParseNode
  rw [hsl]
  dsimp only
  rw [hc]
  dsimp only
  rw [if_pos rfl]
  unfold parseHashedNode
  rw [hss]

theorem parseNode_two_notstr {kind : Kind} {first rest : List Nat}
    (hsl : Rlp.splitList s = .ok (el, r)) (hc : Rlp.countValues el = .ok 2)
    (hsp : Rlp.split el = .ok (kind, first, rest)) (hk : kind ≠ .str) :
    ParseNode s = .error .invalidEncoding := by
  unfold ParseNode
  rw [hsl]
  dsimp only
  rw [hc]
  dsimp only
  rw [if_neg (by norm_num), if_pos rfl, hsp]
  dsimp only
  rw [if_pos hk]

theorem parseNode_two_leaf {first rest v r2 : List Nat}
    (hsl : Rlp.splitList s = .ok (el, r)) (hc : Rlp.countValues el = .ok 2)
    (hsp : Rlp.split el = .ok (.str, first, rest)) (hlen : first.length = 32)
    (hss : Rlp.splitString rest = .ok (v, r2)) :
    ParseNode s = .ok (.leaf first v) := by
  unfold ParseNode
  rw [hsl]
  dsimp only
  rw [hc]
  dsimp only
  rw [if_neg (by norm_num), if_pos rfl, hsp]
  dsimp only
  rw [if_neg (by simp), if_pos hlen, hss]

theorem parseNode_two_leaf_err {first rest : List Nat} {e : Err}
    (hsl : Rlp.splitList s = .ok (el, r)) (hc : Rlp.countValues el = .ok 2)
    (hsp : Rlp.split el = .ok (.str, first, rest)) (hlen : first.length = 32)
    (hss : Rlp.splitString rest = .error e) :
    ParseNode s = .error e := by
  unfold ParseNode
  rw [hsl]
  dsimp only
  rw [hc]
  dsimp only
  rw [if_neg (by norm_num), if_pos rfl, hsp]
  dsimp only
  rw [if_neg (by simp), if_pos hlen, hss]

theorem parseNode_two_internal {first rest children r2 : List Nat}
    (hsl : Rlp.splitList s = .ok (el, r)) (hc : Rlp.countValues el = .ok 2)
    (hsp : Rlp.split el = .ok (.str, first, rest)) (hlen : first.length = 128)
    (hsc : Rlp.splitList rest = .ok (children, r2)) :
    ParseNode s = createInternalNode first children := by
  unfold ParseNode
  rw [hsl]
  dsimp only
  rw [hc]
  dsimp only
  rw [if_neg (by norm_num), if_pos rfl, hsp]
  dsimp only
  rw [if_neg (by simp), if_neg (by rw [hlen]; norm_num), if_pos hlen, hsc]

theorem parseNode_two_internal_err {first rest : List Nat} {e : Err}
    (hsl : Rlp.splitList s = .ok (el, r)) (hc : Rlp.countValues el = .ok 2)
    (hsp : Rlp.split el = .ok (.str, first, rest)) (hlen : first.length = 128)
    (hsc : Rlp.splitList rest = .error e) :
    ParseNode s = .error e := by
  unfold ParseNode
  rw [hsl]
  dsimp only
  rw [hc]
  dsimp only
  rw [if_neg (by norm_num), if_pos rfl, hsp]
  dsimp only
  rw [if_neg (by simp), if_neg (by rw [hlen]; norm_num), if_pos hlen, hsc]

theorem parseNode_two_badlen {first rest : List Nat}
    (hsl : Rlp.splitList s = .ok (el, r)) (hc : Rlp.countValues el = .ok 2)
    (hsp : Rlp.split el = .ok (.str, first, rest)) (h32 : first.length ≠ 32)
    (h128 : first.length ≠ 128) :
    ParseNode s = .error .invalidEncoding := by
  unfold ParseNode
  rw [hsl]
  dsimp only
  rw [hc]
  dsimp only
  rw [if_neg (by norm_num), if_pos rfl, hsp]
  dsimp only
  rw [if_neg (by simp), if_neg h32, if_neg h128]

theorem createInternalNode_shape {bl raw : List Nat} {n : PNode}
    (h : createInternalNode bl raw = .ok n) :
    ∃ ch, n = .internal ch := by
  unfold createInternalNode at h
  revert h
  split
  · intro h; exact Except.noConfusion h
  · rename_i ch hch
    intro h
    simp only [Except.ok.injEq] at h
    exact ⟨ch, h.symm⟩

end ParseNodeCases

theorem parse_serialize_leaf {k v : List Nat} (hk : k.length = 32)
    (hv : v.length < 2 ^ 56) :
    ParseNode (serializeNode (.leaf k v)) = .ok (.leaf k v) := by
  have hk64 : k.length < 2 ^ 64 := by omega
  have hv64 : v.length < 2 ^ 64 := by omega
  have hcontent : (childContent (.leaf k v)).length < 2 ^ 64 := by
    show (encodeString k ++ encodeString v).length < 2 ^ 64
    rw [List.length_append]
    have h1 := encodeString_length_le k hk64
    have h2 := encodeString_length_le v hv64
    omega
  have hsl : Rlp.splitList (serializeNode (.leaf k v)) =
      .ok (encodeString k ++ encodeString v, []) := by
    have hl := splitList_encodeList (childContent (.leaf k v)) [] hcontent
    rw [List.append_nil] at hl
    exact hl
  have hcount : Rlp.countValues (encodeString k ++ encodeString v) = .ok 2 := by
    rw [countValues_encodeString k (encodeString v) hk64,
      countValues_encodeString_one v hv64]
  have hsplit : Rlp.split (encodeString k ++ encodeString v) =
      .ok (.str, k, encodeString v) := by
    have hs := split_encodeString k (encodeString v) hk64
    rwa [if_neg (by rw [hk]; rintro ⟨h, -⟩; omega)] at hs
  exact parseNode_two_leaf hsl hcount hsplit hk
    (splitString_encodeString_nil v hv64)

theorem parse_serialize_hashed {h : List Nat} (hh : h.length = 32) :
    ParseNode (serializeNode (.hashed h)) = .ok (.hashed h) := by
  have hh64 : h.length < 2 ^ 64 := by omega
  have hcontent : (childContent (.hashed h)).length < 2 ^ 64 := by
    show (encodeString h).length < 2 ^ 64
    have := encodeString_length_le h hh64
    omega
  have hsl : Rlp.splitList (serializeNode (.hashed h)) =
      .ok (encodeString h, []) := by
    have hl := splitList_encodeList (childContent (.hashed h)) [] hcontent
    rw [List.append_nil] at hl
    exact hl
  have hp := parseNode_one_ok hsl (countValues_encodeString_one h hh64)
    (splitString_encodeString_nil h hh64)
  rwa [bytesToHash_len32 hh] at hp

-- Sanity checks of the embedding on concrete inputs.
example : Rlp.split [0x05] = .ok (.byte, [0x05], []) := rfl
example : Rlp.split [0x83, 1, 2, 3, 9] = .ok (.str, [1, 2, 3], [9]) := rfl
example : Rlp.split [0xC2, 0x05, 0x06] = .ok (.list, [5, 6], []) := rfl
example : Rlp.split [0x81, 0x05] = .error .canonSize := rfl
example : Rlp.countValues [0x05, 0x82, 1, 2, 0xC0] = .ok 3 := rfl
example : ParseNode [0xC2, 0x81, 0x80] =
    .ok (.hashed (List.replicate 31 0 ++ [0x80])) := rfl
example : ParseNode [0xC1, 0xC0] = .error .expectedString := rfl

/-- C1 (amended): `ParseNode` picks the node shape from the element count of
the input list and the length of the first element, with the amendments forced
by the code: a one-element list yields a hashed node only when its element is
a byte string (a list element is an error); a two-element list with a 32-byte
first string element yields a leaf only when the second element is a byte
string; a 128-byte first string element hands the second element (which must
be a list) to `createInternalNode`, whose success always produces an internal
node; every other shape is an error and never a node. -/
theorem c1_parse_shape (s : List Nat) (hb : ∀ x ∈ s, x < 256) :
    ParseNodeShapeSpec s := by
  clear hb
  refine ⟨?_, ?_, ?_, ?_, ?_, ?_, ?_, ?_, ?_, ?_, ?_⟩
  · intro el r h r2 hsl hc hss
    exact parseNode_one_ok hsl hc hss
  · intro el r e hsl hc hss
    exact parseNode_one_err hsl hc hss
  · intro el r first rest v r2 hsl hc hsp hlen hss
    exact parseNode_two_leaf hsl hc hsp hlen hss
  · intro el r first rest e hsl hc hsp hlen hss
    exact parseNode_two_leaf_err hsl hc hsp hlen hss
  · intro el r first rest children r2 hsl hc hsp hlen hsc
    exact ⟨parseNode_two_internal hsl hc hsp hlen hsc,
      fun n hn => createInternalNode_shape hn⟩
  · intro el r first rest e hsl hc hsp hlen hsc
    exact parseNode_two_internal_err hsl hc hsp hlen hsc
  · intro el r kind first rest hsl hc hsp hk
    exact parseNode_two_notstr hsl hc hsp hk
  · intro el r first rest hsl hc hsp h32 h128
    exact parseNode_two_badlen hsl hc hsp h32 h128
  · intro el r c hsl hc h1 h2
    exact parseNode_count_other hsl hc h1 h2
  · intro el r e hsl hc
    exact parseNode_count_err hsl hc
  · intro e hsl
    exact parseNode_splitList_err hsl

theorem c1_witness : ParseNodeShapeSpec c1wInput :=
  c1_parse_shape c1wInput (by decide)

/-- C1 counterexample: the input `[0xC1, 0xC0]` is a one-element RLP list
(its element is the empty list), yet `ParseNode` returns an error instead of
a hashed node, refuting the claim that every one-element list yields a hashed
node. -/
theorem c1_counterexample :
    Rlp.splitList [0xC1, 0xC0] = .ok ([0xC0], []) ∧
    Rlp.countValues [0xC0] = .ok 1 ∧
    ParseNode [0xC1, 0xC0] = .error .expectedString :=
  ⟨rfl, rfl, rfl⟩

/-- C10: a one-element list is parsed by `parseHashedNode` with no length
check on the element: any byte-string element `h` succeeds, and the resulting
hash is `h` left-padded with zero bytes when shorter than 32 bytes and cropped
to its last 32 bytes when longer (the behaviour of `common.BytesToHash`). -/
theorem c10_hashed_any_length (s el r h r2 : List Nat)
    (hsl : Rlp.splitList s = .ok (el, r)) (hc : Rlp.countValues el = .ok 1)
    (hss : Rlp.splitString el = .ok (h, r2)) :
    ParseNode s = .ok (.hashed (bytesToHash h)) ∧
    bytesToHash h =
      (if h.length ≤ 32 then List.replicate (32 - h.length) 0 ++ h
       else h.drop (h.length - 32)) :=
  ⟨parseNode_one_ok hsl hc hss, bytesToHash_spec h⟩

theorem c10_witness :
    ParseNode [0xC6, 0x85, 1, 2, 3, 4, 5] =
      .ok (.hashed (bytesToHash [1, 2, 3, 4, 5])) ∧
    bytesToHash [1, 2, 3, 4, 5] =
      (if ([1, 2, 3, 4, 5] : List Nat).length ≤ 32 then
        List.replicate (32 - ([1, 2, 3, 4, 5] : List Nat).length) 0 ++ [1, 2, 3, 4, 5]
       else ([1, 2, 3, 4, 5] : List Nat).drop (([1, 2, 3, 4, 5] : List Nat).length - 32)) :=
  c10_hashed_any_length [0xC6, 0x85, 1, 2, 3, 4, 5] [0x85, 1, 2, 3, 4, 5] []
    [1, 2, 3, 4, 5] [] rfl rfl rfl

/-- C9: a child sub-element whose element count is neither 1 nor 2 is skipped
silently by the `createInternalNode` loop: the loop state is unchanged (the
bitmap-designated slot keeps its empty value) and parsing continues with the
remaining children; consequently `ParseNode` succeeds on such input, as the
concrete second conjunct shows (slot 0 is marked in the bitlist but the child
is a three-element list, and the result is an internal node with every slot
empty). -/
theorem c9_skip_malformed_child :
    (∀ i idxs raw el rest c acc, Rlp.splitList raw = .ok (el, rest) →
        Rlp.countValues el = .ok c → c ≠ 1 → c ≠ 2 →
        goChildren (i :: idxs) raw acc = goChildren idxs rest acc) ∧
    ParseNode c9input = .ok (.internal emptyChildren) := by
  constructor
  · intro i idxs raw el rest c acc hsl hc h1 h2
    have hcase : c = 0 ∨ ∃ n, c = n + 3 := by
      rcases c with _ | _ | _ | n
      · exact Or.inl rfl
      · exact absurd rfl h1
      · exact absurd rfl h2
      · exact Or.inr ⟨n, rfl⟩
    rcases hcase with rfl | ⟨n, rfl⟩
    · simp only [goChildren, hsl, hc]
    · simp only [goChildren, hsl, hc]
  · rfl

theorem c9_witness :
    goChildren [5] [0xC3, 1, 2, 3] emptyChildren =
      goChildren [] [] emptyChildren :=
  c9_skip_malformed_child.1 5 [] [0xC3, 1, 2, 3] [1, 2, 3] [] 3 emptyChildren
    rfl rfl (by decide) (by decide)

/-- C3 (amended): a child sub-element of a serialized internal node is parsed
only as a hashed node (one element) or as a leaf (two elements, both byte
strings, with no constraint on the first element's length, so even a 128-byte
first element becomes a leaf key); a two-element child whose second element is
a list — in particular an encoded internal node — makes deserialization fail
with `ErrExpectedString` instead of producing a nested internal node. -/
theorem c3_child_parsing :
    (∀ i idxs raw el rest acc hn, Rlp.splitList raw = .ok (el, rest) →
        Rlp.countValues el = .ok 1 → parseHashedNode el = .ok hn →
        goChildren (i :: idxs) raw acc =
          goChildren idxs rest (acc.set i (some hn))) ∧
    (∀ i idxs raw el rest acc ln, Rlp.splitList raw = .ok (el, rest) →
        Rlp.countValues el = .ok 2 → parseLeafNode el = .ok ln →
        goChildren (i :: idxs) raw acc =
          goChildren idxs rest (acc.set i (some ln))) ∧
    (∀ el k rest2 v r2, Rlp.splitString el = .ok (k, rest2) →
        Rlp.splitString rest2 = .ok (v, r2) →
        parseLeafNode el = .ok (.leaf k v)) ∧
    (∀ i idxs raw el rest acc k rest2 e, Rlp.splitList raw = .ok (el, rest) →
        Rlp.countValues el = .ok 2 → Rlp.splitString el = .ok (k, rest2) →
        Rlp.splitString rest2 = .error e →
        goChildren (i :: idxs) raw acc = .error e) := by
  refine ⟨?_, ?_, ?_, ?_⟩
  · intro i idxs raw el rest acc hn hsl hc hh
    simp only [goChildren, hsl, hc, hh]
  · intro i idxs raw el rest acc ln hsl hc hl
    simp only [goChildren, hsl, hc, hl]
  · intro el k rest2 v r2 h1 h2
    unfold parseLeafNode
    rw [h1]
    dsimp only
    rw [h2]
  · intro i idxs raw el rest acc k rest2 e hsl hc h1 h2
    have hleaf : parseLeafNode el = .error e := by
      unfold parseLeafNode
      rw [h1]
      dsimp only
      rw [h2]
    simp only [goChildren, hsl, hc, hleaf]

theorem c3_witness :
    parseLeafNode ([0xA0] ++ List.replicate 32 7 ++ [0x61]) =
      .ok (.leaf (List.replicate 32 7) [0x61]) :=
  c3_child_parsing.2.2.1 ([0xA0] ++ List.replicate 32 7 ++ [0x61])
    (List.replicate 32 7) [0x61] [0x61] [] rfl rfl

theorem and_mask_eq_iff_testBit (b j : Nat) :
    (b &&& (1 <<< j) = 1 <<< j) ↔ b.testBit j = true := by
  rw [Nat.shiftLeft_eq, one_mul, Nat.and_two_pow]
  cases hb : b.testBit j
  · simp only [Bool.toNat_false, zero_mul]
    constructor
    · intro h
      exact absurd h.symm (by positivity)
    · intro h
      simp at h
  · simp

theorem and_ff_ne_zero_of_testBit {b j : Nat} (hj : j < 8)
    (hbit : b.testBit j = true) : ¬(b &&& 0xff = 0) := by
  intro h0
  have h255 : (0xff : Nat).testBit j = true := by
    have : (0xff : Nat) = 2 ^ 8 - 1 := by norm_num
    rw [this, Nat.testBit_two_pow_sub_one]
    simpa using hj
  have : (b &&& 0xff).testBit j = true := by
    rw [Nat.testBit_land, hbit, h255]
    rfl
  rw [h0] at this
  simp at this

theorem mem_indicesFromBitlistAux (bl : List Nat) :
    ∀ i n, n ∈ indicesFromBitlistAux i bl ↔
      ∃ p j, p < bl.length ∧ j < 8 ∧
        Nat.testBit (bl.getD p 0) j = true ∧ n = (i + p) * 8 + j := by
  induction bl with
  | nil =>
    intro i n
    simp [indicesFromBitlistAux]
  | cons b rest ih =>
    intro i n
    simp only [indicesFromBitlistAux, List.mem_append]
    constructor
    · rintro (hin | hin)
      · by_cases hz : b &&& 0xff = 0
        · rw [if_pos hz] at hin
          simp at hin
        · rw [if_neg hz] at hin
          simp only [List.mem_map, List.mem_filter, List.mem_range,
            decide_eq_true_eq] at hin
          obtain ⟨j, ⟨hj8, hbit⟩, rfl⟩ := hin
          exact ⟨0, j, by simp, hj8,
            by simpa using (and_mask_eq_iff_testBit b j).mp hbit, by ring⟩
      · obtain ⟨p, j, hp, hj, hbit, rfl⟩ := (ih (i + 1) n).mp hin
        refine ⟨p + 1, j, by simpa using hp, hj, by simpa using hbit, by ring⟩
    · rintro ⟨p, j, hp, hj, hbit, rfl⟩
      match p with
      | 0 =>
        left
        simp only [List.getD_cons_zero] at hbit
        rw [if_neg (and_ff_ne_zero_of_testBit hj hbit)]
        simp only [List.mem_map, List.mem_filter, List.mem_range,
          decide_eq_true_eq]
        exact ⟨j, ⟨hj, (and_mask_eq_iff_testBit b j).mpr hbit⟩, by ring⟩
      | p + 1 =>
        right
        refine (ih (i + 1) ((i + (p + 1)) * 8 + j)).mpr
          ⟨p, j, by simpa using hp, hj, by simpa using hbit, by ring⟩

theorem mem_indicesFromBitlist (bl : List Nat) (n : Nat) :
    n ∈ indicesFromBitlist bl ↔
      n < 8 * bl.length ∧ Nat.testBit (bl.getD (n / 8) 0) (n % 8) = true := by
  unfold indicesFromBitlist
  rw [mem_indicesFromBitlistAux]
  constructor
  · rintro ⟨p, j, hp, hj, hbit, rfl⟩
    have hdiv : ((0 + p) * 8 + j) / 8 = p := by
      rw [zero_add, mul_comm, Nat.mul_add_div (by norm_num),
        Nat.div_eq_of_lt hj, add_zero]
    have hmod : ((0 + p) * 8 + j) % 8 = j := by
      rw [zero_add, mul_comm, Nat.mul_add_mod, Nat.mod_eq_of_lt hj]
    rw [hdiv, hmod]
    exact ⟨by omega, hbit⟩
  · rintro ⟨hlt, hbit⟩
    have hdm := Nat.div_add_mod n 8
    have hm8 : n % 8 < 8 := Nat.mod_lt n (by norm_num)
    exact ⟨n / 8, n % 8, by omega, hm8, hbit, by omega⟩

theorem pairwise_indicesFromBitlistAux (bl : List Nat) :
    ∀ i, List.Pairwise (· < ·) (indicesFromBitlistAux i bl) := by
  induction bl with
  | nil =>
    intro i
    simp [indicesFromBitlistAux]
  | cons b rest ih =>
    intro i
    simp only [indicesFromBitlistAux]
    rw [List.pairwise_append]
    refine ⟨?_, ih (i + 1), ?_⟩
    · by_cases hz : b &&& 0xff = 0
      · rw [if_pos hz]; simp
      · rw [if_neg hz]
        rw [List.pairwise_map]
        have hr : List.Pairwise (· < ·)
            ((List.range 8).filter (fun j => b &&& (1 <<< j) = 1 <<< j)) :=
          (List.pairwise_lt_range 8).sublist (List.filter_sublist _)
        exact hr.imp (fun h => by omega)
    · intro a ha b2 hb2
      obtain ⟨p, j, _, hj, _, rfl⟩ := (mem_indicesFromBitlistAux rest (i + 1) b2).mp hb2
      by_cases hz : b &&& 0xff = 0
      · rw [if_pos hz] at ha
        simp at ha
      · rw [if_neg hz] at ha
        simp only [List.mem_map, List.mem_filter, List.mem_range,
          decide_eq_true_eq] at ha
        obtain ⟨j2, ⟨hj2, _⟩, rfl⟩ := ha
        have : (i + (p + 1)) * 8 + j = (i + 1 + p) * 8 + j := by ring
        omega

theorem pairwise_indicesFromBitlist (bl : List Nat) :
    List.Pairwise (· < ·) (indicesFromBitlist bl) :=
  pairwise_indicesFromBitlistAux bl 0

theorem getD_set_self {α : Type} (l : List α) :
    ∀ (i : Nat) (v d : α), i < l.length → (l.set i v).getD i d = v := by
  induction l with
  | nil => intro i v d h; simp at h
  | cons a l ih =>
    intro i v d h
    match i with
    | 0 => rfl
    | i + 1 =>
      simp only [List.set_cons_succ, List.getD_cons_succ]
      exact ih i v d (by simpa using h)

theorem getD_set_ne {α : Type} (l : List α) :
    ∀ (i j : Nat) (v d : α), i ≠ j → (l.set i v).getD j d = l.getD j d := by
  induction l with
  | nil => intro i j v d _; simp
  | cons a l ih =>
    intro i j v d hne
    match i, j with
    | 0, 0 => exact absurd rfl hne
    | 0, j + 1 => rfl
    | i + 1, 0 => rfl
    | i + 1, j + 1 =>
      simp only [List.set_cons_succ, List.getD_cons_succ]
      exact ih i j v d (by omega)

theorem setAll_length (idxs : List Nat) :
    ∀ (ps : List PNode) (acc : List (Option PNode)),
      (setAll acc idxs ps).length = acc.length := by
  induction idxs with
  | nil => intro ps acc; cases ps <;> rfl
  | cons i idxs ih =>
    intro ps acc
    cases ps with
    | nil => rfl
    | cons p ps =>
      show (setAll (acc.set i (some p)) idxs ps).length = _
      rw [ih ps (acc.set i (some p)), List.length_set]

theorem setAll_getD_not_mem (idxs : List Nat) :
    ∀ (ps : List PNode) (acc : List (Option PNode)) (j : Nat), j ∉ idxs →
      (setAll acc idxs ps).getD j none = acc.getD j none := by
  induction idxs with
  | nil => intro ps acc j _; cases ps <;> rfl
  | cons i idxs ih =>
    intro ps acc j hj
    cases ps with
    | nil => rfl
    | cons p ps =>
      show (setAll (acc.set i (some p)) idxs ps).getD j none = _
      rw [ih ps (acc.set i (some p)) j (fun h => hj (List.mem_cons_of_mem i h)),
        getD_set_ne acc i j (some p) none (fun h => hj (h ▸ List.mem_cons_self i idxs))]

theorem setAll_getD_mem (idxs : List Nat) :
    ∀ (ps : List PNode) (acc : List (Option PNode)) (k : Nat),
      List.Pairwise (· < ·) idxs → ps.length = idxs.length →
      (∀ n, n ∈ idxs → n < acc.length) → k < idxs.length →
      (setAll acc idxs ps).getD (idxs.getD k 0) none =
        some (ps.getD k (.hashed [])) := by
  induction idxs with
  | nil => intro ps acc k _ _ _ hk; simp at hk
  | cons i idxs ih =>
    intro ps acc k hpw hlen hbound hk
    cases ps with
    | nil => simp at hlen
    | cons p ps =>
      show (setAll (acc.set i (some p)) idxs ps).getD ((i :: idxs).getD k 0) none = _
      match k with
      | 0 =>
        simp only [List.getD_cons_zero]
        have hnot : i ∉ idxs := by
          intro hmem
          have := (List.pairwise_cons.mp hpw).1 i hmem
          omega
        rw [setAll_getD_not_mem idxs ps (acc.set i (some p)) i hnot,
          getD_set_self acc i (some p) none (hbound i (List.mem_cons_self i idxs))]
      | k + 1 =>
        simp only [List.getD_cons_succ]
        refine ih ps (acc.set i (some p)) k (List.pairwise_cons.mp hpw).2
          (by simpa using hlen) ?_ (by simpa using hk)
        intro n hn
        rw [List.length_set]
        exact hbound n (List.mem_cons_of_mem i hn)

theorem getD_replicate_none :
    ∀ (n j : Nat), (List.replicate n (none : Option PNode)).getD j none = none := by
  intro n
  induction n with
  | zero => intro j; rfl
  | succ m ih =>
    intro j
    match j with
    | 0 => rfl
    | j + 1 => exact ih j

theorem goChildren_spec :
    ∀ (idxs raw : List Nat) (els : List (List Nat)) (ps : List PNode)
      (acc : List (Option PNode)),
      SplitsInto raw els → els.length = idxs.length → ps.length = idxs.length →
      (∀ k, k < idxs.length → ChildOk (els.getD k []) (ps.getD k (.hashed []))) →
      goChildren idxs raw acc = .ok (setAll acc idxs ps) := by
  intro idxs
  induction idxs with
  | nil =>
    intro raw els ps acc _ _ _ _
    cases ps <;> rfl
  | cons i idxs ih =>
    intro raw els ps acc hsp hlen hplen hok
    cases els with
    | nil => simp at hlen
    | cons e els =>
      cases ps with
      | nil => simp at hplen
      | cons p ps =>
        cases hsp with
        | cons hsl hsp2 =>
          have hco := hok 0 (by simp)
          simp only [List.getD_cons_zero] at hco
          rcases hco with ⟨hc, hp⟩ | ⟨hc, hp⟩ <;>
          · simp only [goChildren, hsl, hc, hp, setAll]
            exact ih _ els ps (acc.set i (some p)) hsp2 (by simpa using hlen)
              (by simpa using hplen)
              (fun k hk => by simpa using hok (k + 1) (by simpa using hk))

/-- C2: for a well-formed internal-node body, deserialization assigns the
k-th encoded child to the slot of the k-th set bit of the bitmap; the slot
indices are exactly the `8*i + j` with bit `j` (least significant first) of
byte `i` set, they are produced in strictly increasing order, and every slot
whose bit is 0 stays empty. -/
theorem c2_bitlist_assignment (bl raw : List Nat) (els : List (List Nat))
    (ps : List PNode) (hbl : bl.length = 128) (hsp : SplitsInto raw els)
    (hlen : els.length = (indicesFromBitlist bl).length)
    (hplen : ps.length = (indicesFromBitlist bl).length)
    (hok : ∀ k, k < (indicesFromBitlist bl).length →
      ChildOk (els.getD k []) (ps.getD k (.hashed []))) :
    InternalAssignSpec bl raw ps := by
  refine ⟨mem_indicesFromBitlist bl, pairwise_indicesFromBitlist bl, ?_⟩
  have hbound : ∀ n, n ∈ indicesFromBitlist bl → n < emptyChildren.length := by
    intro n hn
    have := ((mem_indicesFromBitlist bl n).mp hn).1
    simp only [emptyChildren, List.length_replicate]
    omega
  have hgo := goChildren_spec (indicesFromBitlist bl) raw els ps emptyChildren
    hsp hlen hplen hok
  refine ⟨setAll emptyChildren (indicesFromBitlist bl) ps, ?_, ?_, ?_, ?_⟩
  · unfold createInternalNode
    rw [hgo]
  · rw [setAll_length]
    rfl
  · intro k hk
    exact setAll_getD_mem (indicesFromBitlist bl) ps emptyChildren k
      (pairwise_indicesFromBitlist bl) hplen hbound hk
  · intro j hj
    rw [setAll_getD_not_mem (indicesFromBitlist bl) ps emptyChildren j hj]
    exact getD_replicate_none 1024 j

theorem c2_witness : InternalAssignSpec c2wBl c2wRaw c2wPs :=
  c2_bitlist_assignment c2wBl c2wRaw c2wEls c2wPs rfl
    (@SplitsInto.cons c2wRaw [0x81, 0x80] [0xC2, 1, 2] [[1, 2]] rfl
      (@SplitsInto.cons [0xC2, 1, 2] [1, 2] [] [] rfl (SplitsInto.nil [])))
    rfl rfl
    (fun k hk => by
      match k, (hk : k < 2) with
      | 0, _ => exact Or.inl ⟨rfl, rfl⟩
      | 1, _ => exact Or.inr ⟨rfl, rfl⟩)

/-- C3 counterexample: in `c3input` the single child sub-element `c3child` is
a two-element list whose first element is a 128-byte string — the encoding of
an internal node — yet `ParseNode` fails with `ErrExpectedString` instead of
reconstructing a nested internal node. -/
theorem c3_counterexample :
    Rlp.countValues c3child = .ok 2 ∧
    Rlp.splitString c3child = .ok (List.replicate 128 0, [0xC0]) ∧
    ParseNode c3input = .error .expectedString :=
  ⟨rfl, rfl, rfl⟩

theorem testBit_bits8 : ∀ (b0 b1 b2 b3 b4 b5 b6 b7 : Bool) (j : Fin 8),
    Nat.testBit (cond b0 1 0 + (cond b1 2 0 + (cond b2 4 0 + (cond b3 8 0 +
      (cond b4 16 0 + (cond b5 32 0 + (cond b6 64 0 + (cond b7 128 0 + 0)))))))) j.val =
    [b0, b1, b2, b3, b4, b5, b6, b7].getD j.val false := by decide

theorem testBit_byteOfSlots (cs : List (Option PNode)) (i j : Nat) (hj : j < 8) :
    (byteOfSlots cs i).testBit j = (cs.getD (8 * i + j) none).isSome := by
  have hsum : byteOfSlots cs i =
      (cond (cs.getD (8 * i + 0) none).isSome 1 0 +
        (cond (cs.getD (8 * i + 1) none).isSome 2 0 +
        (cond (cs.getD (8 * i + 2) none).isSome 4 0 +
        (cond (cs.getD (8 * i + 3) none).isSome 8 0 +
        (cond (cs.getD (8 * i + 4) none).isSome 16 0 +
        (cond (cs.getD (8 * i + 5) none).isSome 32 0 +
        (cond (cs.getD (8 * i + 6) none).isSome 64 0 +
        (cond (cs.getD (8 * i + 7) none).isSome 128 0 + 0)))))))) := rfl
  rw [hsum,
    testBit_bits8 (cs.getD (8 * i + 0) none).isSome (cs.getD (8 * i + 1) none).isSome
      (cs.getD (8 * i + 2) none).isSome (cs.getD (8 * i + 3) none).isSome
      (cs.getD (8 * i + 4) none).isSome (cs.getD (8 * i + 5) none).isSome
      (cs.getD (8 * i + 6) none).isSome (cs.getD (8 * i + 7) none).isSome ⟨j, hj⟩]
  interval_cases j <;> rfl

theorem bitlistOf_length (cs : List (Option PNode)) : (bitlistOf cs).length = 128 := by
  simp [bitlistOf]

theorem getD_map_lt {α β : Type} (f : α → β) (l : List α) :
    ∀ (k : Nat) (d : α) (d2 : β), k < l.length →
      (l.map f).getD k d2 = f (l.getD k d) := by
  induction l with
  | nil => intro k d d2 h; simp at h
  | cons a l ih =>
    intro k d d2 h
    match k with
    | 0 => rfl
    | k + 1 => exact ih k d d2 (by simpa using h)

theorem bitlistOf_getD (cs : List (Option PNode)) (p : Nat) (hp : p < 128) :
    (bitlistOf cs).getD p 0 = byteOfSlots cs p := by
  unfold bitlistOf
  rw [getD_map_lt (byteOfSlots cs) (List.range 128) p 0 0 (by simpa using hp)]
  have hr : (List.range 128).getD p 0 = p := by
    rw [List.getD_eq_getElem (List.range 128) 0 (by simpa using hp)]
    exact List.getElem_range p (by simpa using hp)
  rw [hr]

theorem eq_of_pairwise_lt_of_mem_iff :
    ∀ (l₁ l₂ : List Nat), List.Pairwise (· < ·) l₁ → List.Pairwise (· < ·) l₂ →
      (∀ n, n ∈ l₁ ↔ n ∈ l₂) → l₁ = l₂ := by
  intro l₁
  induction l₁ with
  | nil =>
    intro l₂ _ _ hmem
    cases l₂ with
    | nil => rfl
    | cons b l₂ => exact absurd ((hmem b).mpr (List.mem_cons_self b l₂)) (by simp)
  | cons a l₁ ih =>
    intro l₂ h1 h2 hmem
    cases l₂ with
    | nil => exact absurd ((hmem a).mp (List.mem_cons_self a l₁)) (by simp)
    | cons b l₂ =>
      obtain ⟨ha1, hp1⟩ := List.pairwise_cons.mp h1
      obtain ⟨hb2, hp2⟩ := List.pairwise_cons.mp h2
      have hab : a = b := by
        have haIn := (hmem a).mp (List.mem_cons_self a l₁)
        have hbIn := (hmem b).mpr (List.mem_cons_self b l₂)
        rcases List.mem_cons.mp haIn with h | h
        · exact h
        · rcases List.mem_cons.mp hbIn with h' | h'
          · exact h'.symm
          · have hba := hb2 a h
            have hab := ha1 b h'
            omega
      subst hab
      congr 1
      apply ih l₂ hp1 hp2
      intro n
      constructor
      · intro hn
        have hcons := (hmem n).mp (List.mem_cons_of_mem a hn)
        rcases List.mem_cons.mp hcons with h | h
        · have := ha1 n hn
          omega
        · exact h
      · intro hn
        have hcons := (hmem n).mpr (List.mem_cons_of_mem a hn)
        rcases List.mem_cons.mp hcons with h | h
        · have := hb2 n hn
          omega
        · exact h

theorem getD_isSome_lt_length {cs : List (Option PNode)} {j : Nat}
    (h : (cs.getD j none).isSome = true) : j < cs.length := by
  by_contra hge
  rw [List.getD_eq_default cs none (by omega)] at h
  simp at h

theorem mem_occupiedSlots (cs : List (Option PNode)) (j : Nat) :
    j ∈ occupiedSlots cs ↔ (cs.getD j none).isSome = true := by
  unfold occupiedSlots
  rw [List.mem_filter, List.mem_range]
  constructor
  · rintro ⟨-, h⟩
    simpa using h
  · intro h
    exact ⟨getD_isSome_lt_length h, by simpa using h⟩

theorem pairwise_occupiedSlots (cs : List (Option PNode)) :
    List.Pairwise (· < ·) (occupiedSlots cs) :=
  (List.pairwise_lt_range cs.length).sublist (List.filter_sublist _)

theorem occupiedSlots_cons (o : Option PNode) (cs : List (Option PNode)) :
    occupiedSlots (o :: cs) =
      (if o.isSome then [0] else []) ++ (occupiedSlots cs).map Nat.succ := by
  unfold occupiedSlots
  show (List.range (cs.length + 1)).filter _ = _
  rw [List.range_succ_eq_map, List.filter_cons, List.filter_map]
  cases o with
  | none => rfl
  | some c => rfl

theorem occupiedSlots_cons_some (c : PNode) (cs : List (Option PNode)) :
    occupiedSlots (some c :: cs) = 0 :: (occupiedSlots cs).map Nat.succ := by
  rw [occupiedSlots_cons]
  rfl

theorem occupiedSlots_cons_none (cs : List (Option PNode)) :
    occupiedSlots (none :: cs) = (occupiedSlots cs).map Nat.succ := by
  rw [occupiedSlots_cons]
  rfl

theorem occupiedSlots_pairing :
    ∀ (cs : List (Option PNode)),
      (occupiedSlots cs).length = (cs.filterMap id).length ∧
      ∀ k, k < (occupiedSlots cs).length →
        cs.getD ((occupiedSlots cs).getD k 0) none =
          some ((cs.filterMap id).getD k (.hashed [])) := by
  intro cs
  induction cs with
  | nil =>
    refine ⟨rfl, ?_⟩
    intro k hk
    simp [occupiedSlots] at hk
  | cons o cs ih =>
    obtain ⟨ihlen, ihget⟩ := ih
    cases o with
    | some c =>
      rw [occupiedSlots_cons_some]
      constructor
      · show ((occupiedSlots cs).map Nat.succ).length + 1 = (c :: cs.filterMap id).length
        simp only [List.length_map, List.length_cons]
        omega
      · intro k hk
        match k with
        | 0 => rfl
        | k + 1 =>
          have hk2 : k < (occupiedSlots cs).length := by
            simp only [List.length_cons, List.length_map] at hk
            omega
          show (some c :: cs).getD
            (((occupiedSlots cs).map Nat.succ).getD k 0) none = _
          rw [getD_map_lt Nat.succ (occupiedSlots cs) k 0 0 hk2]
          show cs.getD ((occupiedSlots cs).getD k 0) none = _
          rw [ihget k hk2]
          rfl
    | none =>
      rw [occupiedSlots_cons_none]
      constructor
      · show ((occupiedSlots cs).map Nat.succ).length = (cs.filterMap id).length
        simpa using ihlen
      · intro k hk
        have hk2 : k < (occupiedSlots cs).length := by
          simpa using hk
        show (none :: cs).getD
          (((occupiedSlots cs).map Nat.succ).getD k 0) none = _
        rw [getD_map_lt Nat.succ (occupiedSlots cs) k 0 0 hk2]
        show cs.getD ((occupiedSlots cs).getD k 0) none = _
        rw [ihget k hk2]
        rfl

theorem indicesFromBitlist_bitlistOf (cs : List (Option PNode))
    (hlen : cs.length = 1024) :
    indicesFromBitlist (bitlistOf cs) = occupiedSlots cs := by
  apply eq_of_pairwise_lt_of_mem_iff _ _ (pairwise_indicesFromBitlist _)
    (pairwise_occupiedSlots cs)
  intro n
  rw [mem_indicesFromBitlist, mem_occupiedSlots, bitlistOf_length]
  have hm8 : n % 8 < 8 := Nat.mod_lt n (by norm_num)
  have hdm := Nat.div_add_mod n 8
  constructor
  · rintro ⟨hn, hbit⟩
    have hn8 : n / 8 < 128 := by omega
    rw [bitlistOf_getD cs (n / 8) hn8,
      testBit_byteOfSlots cs (n / 8) (n % 8) hm8] at hbit
    have heq : 8 * (n / 8) + n % 8 = n := by omega
    rwa [heq] at hbit
  · intro hsome
    have hlt : n < 1024 := hlen ▸ getD_isSome_lt_length hsome
    have hn8 : n / 8 < 128 := by omega
    refine ⟨by omega, ?_⟩
    rw [bitlistOf_getD cs (n / 8) hn8,
      testBit_byteOfSlots cs (n / 8) (n % 8) hm8,
      show 8 * (n / 8) + n % 8 = n from by omega]
    exact hsome

theorem length_le_encodeList (p : List Nat) : p.length ≤ (encodeList p).length := by
  unfold encodeList
  split_ifs
  · simp
  · simp only [List.length_cons, List.length_append]
    omega

theorem splitsInto_serializeChildren :
    ∀ (cs : List (Option PNode)), (serializeChildren cs).length < 2 ^ 60 →
      SplitsInto (serializeChildren cs) ((cs.filterMap id).map childContent) := by
  intro cs
  induction cs with
  | nil => exact fun _ => SplitsInto.nil []
  | cons o cs ih =>
    intro hbound
    cases o with
    | none => exact ih hbound
    | some c =>
      have hser : serializeChildren (some c :: cs) =
          encodeList (childContent c) ++ serializeChildren cs := rfl
      rw [hser, List.length_append] at hbound
      have hcc : (childContent c).length < 2 ^ 64 := by
        have := length_le_encodeList (childContent c)
        omega
      show SplitsInto (encodeList (childContent c) ++ serializeChildren cs)
        (childContent c :: (cs.filterMap id).map childContent)
      exact SplitsInto.cons (splitList_encodeList _ _ hcc) (ih (by omega))

theorem countValues_encodeList_one (p : List Nat) (h : p.length < 2 ^ 64) :
    Rlp.countValues (encodeList p) = .ok 1 := by
  have hc := countValues_encodeList p [] h
  rw [List.append_nil] at hc
  rw [hc]
  rfl

theorem childOk_flat (c : PNode) (hc : FlatChild c) : ChildOk (childContent c) c := by
  match c with
  | .leaf k v =>
    obtain ⟨hk, hv⟩ := hc
    right
    constructor
    · show Rlp.countValues (encodeString k ++ encodeString v) = .ok 2
      rw [countValues_encodeString k (encodeString v) hk,
        countValues_encodeString_one v hv]
    · show parseLeafNode (encodeString k ++ encodeString v) = .ok (.leaf k v)
      unfold parseLeafNode
      rw [splitString_encodeString k (encodeString v) hk]
      dsimp only
      rw [splitString_encodeString_nil v hv]
  | .hashed h =>
    left
    refine ⟨countValues_encodeString_one h (by rw [hc]; norm_num), ?_⟩
    show parseHashedNode (encodeString h) = .ok (.hashed h)
    unfold parseHashedNode
    rw [splitString_encodeString_nil h (by rw [hc]; norm_num)]
    dsimp only
    rw [bytesToHash_len32 hc]
  | .internal cs => exact hc.elim

theorem parse_serialize_internal {cs : List (Option PNode)}
    (hlen : cs.length = 1024)
    (hflat : ∀ c, some c ∈ cs → FlatChild c)
    (hpay : (serializeChildren cs).length < 2 ^ 60) :
    ParseNode (serializeNode (.internal cs)) = .ok (.internal cs) := by
  have hpay64 : (serializeChildren cs).length < 2 ^ 64 := by omega
  have hblen : (bitlistOf cs).length = 128 := bitlistOf_length cs
  have hbl64 : (bitlistOf cs).length < 2 ^ 64 := by omega
  have hidx : indicesFromBitlist (bitlistOf cs) = occupiedSlots cs :=
    indicesFromBitlist_bitlistOf cs hlen
  obtain ⟨hplen, hpair⟩ := occupiedSlots_pairing cs
  -- the shape of the serialized node
  have hcontent : (childContent (.internal cs)).length < 2 ^ 64 := by
    show (encodeString (bitlistOf cs) ++ encodeList (serializeChildren cs)).length < 2 ^ 64
    rw [List.length_append]
    have h1 := encodeString_length_le (bitlistOf cs) hbl64
    have h2 := encodeList_length_le (serializeChildren cs) hpay64
    omega
  have hsl : Rlp.splitList (serializeNode (.internal cs)) =
      .ok (encodeString (bitlistOf cs) ++ encodeList (serializeChildren cs), []) := by
    have hl := splitList_encodeList (childContent (.internal cs)) [] hcontent
    rw [List.append_nil] at hl
    exact hl
  have hcount : Rlp.countValues
      (encodeString (bitlistOf cs) ++ encodeList (serializeChildren cs)) = .ok 2 := by
    rw [countValues_encodeString (bitlistOf cs) _ hbl64,
      countValues_encodeList_one (serializeChildren cs) hpay64]
  have hsplit : Rlp.split
      (encodeString (bitlistOf cs) ++ encodeList (serializeChildren cs)) =
      .ok (.str, bitlistOf cs, encodeList (serializeChildren cs)) := by
    have hs := split_encodeString (bitlistOf cs) (encodeList (serializeChildren cs)) hbl64
    rwa [if_neg (by rw [hblen]; rintro ⟨h, -⟩; omega)] at hs
  have hscl : Rlp.splitList (encodeList (serializeChildren cs)) =
      .ok (serializeChildren cs, []) := by
    have hl := splitList_encodeList (serializeChildren cs) [] hpay64
    rwa [List.append_nil] at hl
  have hmain := parseNode_two_internal hsl hcount hsplit hblen hscl
  rw [hmain]
  -- now resolve createInternalNode
  have hsp := splitsInto_serializeChildren cs hpay
  have hok : ∀ k, k < (indicesFromBitlist (bitlistOf cs)).length →
      ChildOk (((cs.filterMap id).map childContent).getD k [])
        ((cs.filterMap id).getD k (.hashed [])) := by
    intro k hk
    rw [hidx, hplen] at hk
    rw [getD_map_lt childContent (cs.filterMap id) k (.hashed []) [] hk]
    apply childOk_flat
    apply hflat
    have hmem : (cs.filterMap id).getD k (.hashed []) ∈ cs.filterMap id := by
      rw [List.getD_eq_getElem (cs.filterMap id) (.hashed []) hk]
      exact List.getElem_mem hk
    obtain ⟨a, ha, hid⟩ := List.mem_filterMap.mp hmem
    have : a = some ((cs.filterMap id).getD k (.hashed [])) := hid
    rwa [this] at ha
  have hgo := goChildren_spec (indicesFromBitlist (bitlistOf cs))
    (serializeChildren cs) ((cs.filterMap id).map childContent) (cs.filterMap id)
    emptyChildren hsp
    (by rw [List.length_map, hidx, hplen]) (by rw [hidx, hplen]) hok
  have hbound : ∀ n, n ∈ indicesFromBitlist (bitlistOf cs) → n < emptyChildren.length := by
    intro n hn
    rw [hidx, mem_occupiedSlots] at hn
    have hlt := getD_isSome_lt_length hn
    rw [hlen] at hlt
    simpa [emptyChildren] using hlt
  unfold createInternalNode
  rw [hgo]
  have hsetlen : (setAll emptyChildren (indicesFromBitlist (bitlistOf cs))
      (cs.filterMap id)).length = 1024 := by
    rw [setAll_length]
    rfl
  have hgetD : ∀ j, (setAll emptyChildren (indicesFromBitlist (bitlistOf cs))
      (cs.filterMap id)).getD j none = cs.getD j none := by
    intro j
    by_cases hjocc : (cs.getD j none).isSome = true
    · have hjmem : j ∈ indicesFromBitlist (bitlistOf cs) := by
        rw [hidx, mem_occupiedSlots]
        exact hjocc
      obtain ⟨k, hk, hkj⟩ := List.mem_iff_getElem.mp hjmem
      have hkD : (indicesFromBitlist (bitlistOf cs)).getD k 0 = j := by
        rw [List.getD_eq_getElem _ 0 hk]
        exact hkj
      rw [← hkD]
      rw [setAll_getD_mem (indicesFromBitlist (bitlistOf cs)) (cs.filterMap id)
        emptyChildren k (by rw [hidx]; exact pairwise_occupiedSlots cs)
        (by rw [hidx, hplen]) hbound hk]
      rw [hidx]
      have hk2 : k < (occupiedSlots cs).length := by
        rw [hidx] at hk
        exact hk
      exact (hpair k hk2).symm
    · have hjmem : j ∉ indicesFromBitlist (bitlistOf cs) := by
        rw [hidx, mem_occupiedSlots]
        exact hjocc
      have he : emptyChildren.getD j none = none := getD_replicate_none 1024 j
      rw [setAll_getD_not_mem _ _ _ j hjmem, he]
      exact (Option.not_isSome_iff_eq_none.mp hjocc).symm
  have hfinal : setAll emptyChildren (indicesFromBitlist (bitlistOf cs))
      (cs.filterMap id) = cs := by
    apply List.ext_getElem (by rw [hsetlen, hlen])
    intro i h1 h2
    have hgd := hgetD i
    rwa [List.getD_eq_getElem _ none h1, List.getD_eq_getElem _ none h2] at hgd
  rw [hfinal]

/-- C4 (amended): parsing the serialization is the identity for leaf nodes
(32-byte key, value of any Go-representable length) and for hashed nodes
(32-byte hash); for internal nodes the round trip preserves all structure
(commitment caches are not serialized at all in this model) provided every
child is a leaf or a hashed node — an internal node containing a nested
internal child does not survive the round trip (see the counterexample). -/
theorem c4_roundtrip :
    (∀ k v : List Nat, k.length = 32 → v.length < 2 ^ 56 →
        ParseNode (serializeNode (.leaf k v)) = .ok (.leaf k v)) ∧
    (∀ h : List Nat, h.length = 32 →
        ParseNode (serializeNode (.hashed h)) = .ok (.hashed h)) ∧
    (∀ cs : List (Option PNode), cs.length = 1024 →
        (∀ c, some c ∈ cs → FlatChild c) → (serializeChildren cs).length < 2 ^ 60 →
        ParseNode (serializeNode (.internal cs)) = .ok (.internal cs)) :=
  ⟨fun _ _ hk hv => parse_serialize_leaf hk hv,
   fun _ hh => parse_serialize_hashed hh,
   fun _ h1 h2 h3 => parse_serialize_internal h1 h2 h3⟩

theorem c4_witness :
    ParseNode (serializeNode (.leaf (List.replicate 32 0xAA)
        [0x68, 0x65, 0x6C, 0x6C, 0x6F])) =
      .ok (.leaf (List.replicate 32 0xAA) [0x68, 0x65, 0x6C, 0x6C, 0x6F]) ∧
    ParseNode (serializeNode (.hashed (List.replicate 32 1))) =
      .ok (.hashed (List.replicate 32 1)) :=
  ⟨c4_roundtrip.1 (List.replicate 32 0xAA) [0x68, 0x65, 0x6C, 0x6C, 0x6F]
      (by simp) (by norm_num),
   c4_roundtrip.2.1 (List.replicate 32 1) (by simp)⟩

theorem getD_replicate {α : Type} : ∀ (n j : Nat) (d : α),
    (List.replicate n d).getD j d = d := by
  intro n
  induction n with
  | zero => intro j d; rfl
  | succ m ih =>
    intro j d
    match j with
    | 0 => rfl
    | j + 1 => exact ih j d

theorem slotOf_lt (key d : Nat) : slotOf key d < 1024 :=
  Nat.mod_lt _ (by norm_num)

theorem wfc_empty : WFC emptySlots := by
  constructor
  · rfl
  · intro c hc
    exact absurd (List.eq_of_mem_replicate hc) (by simp)

theorem wfc_set_leaf {cs : List (Option VTree)} (h : WFC cs) (i k : Nat)
    (v : List Nat) : WFC (cs.set i (some (.leaf k v))) := by
  obtain ⟨hlen, hch⟩ := h
  refine ⟨by rw [List.length_set]; exact hlen, ?_⟩
  intro c hc
  rcases List.mem_or_eq_of_mem_set hc with hmem | heq
  · exact hch c hmem
  · cases heq
    exact WFT.leaf k v

theorem wfc_set_internal {cs sub : List (Option VTree)} (h : WFC cs)
    (hsub : WFC sub) (i : Nat) : WFC (cs.set i (some (.internal sub))) := by
  obtain ⟨hlen, hch⟩ := h
  refine ⟨by rw [List.length_set]; exact hlen, ?_⟩
  intro c hc
  rcases List.mem_or_eq_of_mem_set hc with hmem | heq
  · exact hch c hmem
  · cases heq
    exact WFT.internal sub hsub.1 hsub.2

theorem wft_of_getD {cs : List (Option VTree)} {j : Nat} {c : VTree}
    (h : WFC cs) (hc : cs.getD j none = some c) : WFT c := by
  apply h.2
  have hj : j < cs.length := by
    by_contra hge
    rw [List.getD_eq_default cs none (by omega)] at hc
    exact Option.noConfusion hc
  rw [List.getD_eq_getElem cs none hj] at hc
  rw [← hc]
  exact List.getElem_mem hj

theorem wfc_of_wft_internal {sub : List (Option VTree)}
    (h : WFT (.internal sub)) : WFC sub := by
  cases h with
  | internal _ hlen hch => exact ⟨hlen, hch⟩

theorem insertRec_wf : ∀ (fuel d : Nat) (cs : List (Option VTree)) (key : Nat)
    (value : List Nat) (cs2 : List (Option VTree)), WFC cs →
    insertRec fuel d cs key value = .ok cs2 → WFC cs2 := by
  intro fuel
  induction fuel with
  | zero =>
    intro d cs key value cs2 _ h
    exact Except.noConfusion h
  | succ fuel ih =>
    intro d cs key value cs2 hwf h
    simp only [insertRec] at h
    cases hslot : cs.getD (slotOf key d) none with
    | none =>
      rw [hslot] at h
      simp only [Except.ok.injEq] at h
      rw [← h]
      exact wfc_set_leaf hwf _ _ _
    | some t =>
      rw [hslot] at h
      cases t with
      | leaf k v =>
        dsimp only at h
        by_cases hk : k = key
        · rw [if_pos hk] at h
          simp only [Except.ok.injEq] at h
          rw [← h]
          exact wfc_set_leaf hwf _ _ _
        · rw [if_neg hk] at h
          cases h1 : insertRec fuel (d + 1) emptySlots k v with
          | error e =>
            rw [h1] at h
            exact Except.noConfusion h
          | ok ns =>
            rw [h1] at h
            dsimp only at h
            cases h2 : insertRec fuel (d + 1) ns key value with
            | error e =>
              rw [h2] at h
              exact Except.noConfusion h
            | ok ns2 =>
              rw [h2] at h
              simp only [Except.ok.injEq] at h
              rw [← h]
              exact wfc_set_internal hwf
                (ih (d + 1) ns key value ns2
                  (ih (d + 1) emptySlots k v ns wfc_empty h1) h2) _
      | internal sub =>
        dsimp only at h
        cases h1 : insertRec fuel (d + 1) sub key value with
        | error e =>
          rw [h1] at h
          exact Except.noConfusion h
        | ok sub2 =>
          rw [h1] at h
          simp only [Except.ok.injEq] at h
          rw [← h]
          exact wfc_set_internal hwf
            (ih (d + 1) sub key value sub2
              (wfc_of_wft_internal (wft_of_getD hwf hslot)) h1) _
      | hashed hh =>
        dsimp only at h
        exact Except.noConfusion h

theorem getRec_empty (fuel d key : Nat) :
    getRec (fuel + 1) d emptySlots key = .error .valueNotPresent := by
  simp only [getRec]
  have : emptySlots.getD (slotOf key d) none = none := getD_replicate 1024 _ none
  rw [this]

theorem get_insert_same : ∀ (fuel d : Nat) (cs : List (Option VTree))
    (key : Nat) (value : List Nat) (cs2 : List (Option VTree)), WFC cs →
    insertRec fuel d cs key value = .ok cs2 →
    getRec fuel d cs2 key = .ok value := by
  intro fuel
  induction fuel with
  | zero =>
    intro d cs key value cs2 _ h
    exact Except.noConfusion h
  | succ fuel ih =>
    intro d cs key value cs2 hwf h
    simp only [insertRec] at h
    have hilt : slotOf key d < cs.length := by
      rw [hwf.1]
      exact slotOf_lt key d
    cases hslot : cs.getD (slotOf key d) none with
    | none =>
      rw [hslot] at h
      simp only [Except.ok.injEq] at h
      rw [← h]
      simp only [getRec]
      rw [getD_set_self cs (slotOf key d) _ none hilt]
      dsimp only
      rw [if_pos rfl]
    | some t =>
      rw [hslot] at h
      cases t with
      | leaf k v =>
        dsimp only at h
        by_cases hk : k = key
        · rw [if_pos hk] at h
          simp only [Except.ok.injEq] at h
          rw [← h]
          simp only [getRec]
          rw [getD_set_self cs (slotOf key d) _ none hilt]
          dsimp only
          rw [if_pos rfl]
        · rw [if_neg hk] at h
          cases h1 : insertRec fuel (d + 1) emptySlots k v with
          | error e =>
            rw [h1] at h
            exact Except.noConfusion h
          | ok ns =>
            rw [h1] at h
            dsimp only at h
            cases h2 : insertRec fuel (d + 1) ns key value with
            | error e =>
              rw [h2] at h
              exact Except.noConfusion h
            | ok ns2 =>
              rw [h2] at h
              simp only [Except.ok.injEq] at h
              rw [← h]
              simp only [getRec]
              rw [getD_set_self cs (slotOf key d) _ none hilt]
              exact ih (d + 1) ns key value ns2
                (insertRec_wf fuel (d + 1) emptySlots k v ns wfc_empty h1) h2
      | internal sub =>
        dsimp only at h
        cases h1 : insertRec fuel (d + 1) sub key value with
        | error e =>
          rw [h1] at h
          exact Except.noConfusion h
        | ok sub2 =>
          rw [h1] at h
          simp only [Except.ok.injEq] at h
          rw [← h]
          simp only [getRec]
          rw [getD_set_self cs (slotOf key d) _ none hilt]
          exact ih (d + 1) sub key value sub2
            (wfc_of_wft_internal (wft_of_getD hwf hslot)) h1
      | hashed hh =>
        dsimp only at h
        exact Except.noConfusion h

theorem insertRec_shape {fuel d : Nat} {cs : List (Option VTree)} {key : Nat}
    {value : List Nat} {cs2 : List (Option VTree)}
    (h : insertRec (fuel + 1) d cs key value = .ok cs2) :
    ∃ x, cs2 = cs.set (slotOf key d) (some x) := by
  simp only [insertRec] at h
  cases hslot : cs.getD (slotOf key d) none with
  | none =>
    rw [hslot] at h
    simp only [Except.ok.injEq] at h
    exact ⟨_, h.symm⟩
  | some t =>
    rw [hslot] at h
    cases t with
    | leaf k v =>
      dsimp only at h
      by_cases hk : k = key
      · rw [if_pos hk] at h
        simp only [Except.ok.injEq] at h
        exact ⟨_, h.symm⟩
      · rw [if_neg hk] at h
        cases h1 : insertRec fuel (d + 1) emptySlots k v with
        | error e =>
          rw [h1] at h
          exact Except.noConfusion h
        | ok ns =>
          rw [h1] at h
          dsimp only at h
          cases h2 : insertRec fuel (d + 1) ns key value with
          | error e =>
            rw [h2] at h
            exact Except.noConfusion h
          | ok ns2 =>
            rw [h2] at h
            simp only [Except.ok.injEq] at h
            exact ⟨_, h.symm⟩
    | internal sub =>
      dsimp only at h
      cases h1 : insertRec fuel (d + 1) sub key value with
      | error e =>
        rw [h1] at h
        exact Except.noConfusion h
      | ok sub2 =>
        rw [h1] at h
        simp only [Except.ok.injEq] at h
        exact ⟨_, h.symm⟩
    | hashed hh =>
      dsimp only at h
      exact Except.noConfusion h

theorem get_insert_other : ∀ (fuel d : Nat) (cs : List (Option VTree))
    (key : Nat) (value : List Nat) (cs2 : List (Option VTree)) (key2 : Nat),
    WFC cs → insertRec fuel d cs key value = .ok cs2 → key2 ≠ key →
    getRec fuel d cs2 key2 = getRec fuel d cs key2 := by
  intro fuel
  induction fuel with
  | zero =>
    intro d cs key value cs2 key2 _ h _
    exact Except.noConfusion h
  | succ fuel ih =>
    intro d cs key value cs2 key2 hwf h hne
    have hilt : slotOf key d < cs.length := by
      rw [hwf.1]
      exact slotOf_lt key d
    by_cases hslot2 : slotOf key2 d = slotOf key d
    case neg =>
      obtain ⟨x, rfl⟩ := insertRec_shape h
      simp only [getRec]
      rw [getD_set_ne cs (slotOf key d) (slotOf key2 d) (some x) none
        (fun hcon => hslot2 hcon.symm)]
    case pos =>
      simp only [insertRec] at h
      cases hslot : cs.getD (slotOf key d) none with
      | none =>
        rw [hslot] at h
        simp only [Except.ok.injEq] at h
        rw [← h]
        simp only [getRec]
        rw [hslot2, getD_set_self cs (slotOf key d) _ none hilt, hslot]
        dsimp only
        rw [if_neg (fun hcon : key = key2 => hne hcon.symm)]
      | some t =>
        rw [hslot] at h
        cases t with
        | leaf k v =>
          dsimp only at h
          by_cases hk : k = key
          · rw [if_pos hk] at h
            simp only [Except.ok.injEq] at h
            rw [← h]
            simp only [getRec]
            rw [hslot2, getD_set_self cs (slotOf key d) _ none hilt, hslot]
            dsimp only
            rw [if_neg (fun hcon : key = key2 => hne hcon.symm),
              if_neg (fun hcon : k = key2 => hne (hk.symm.trans hcon).symm)]
          · rw [if_neg hk] at h
            cases h1 : insertRec fuel (d + 1) emptySlots k v with
            | error e =>
              rw [h1] at h
              exact Except.noConfusion h
            | ok ns =>
              rw [h1] at h
              dsimp only at h
              cases h2 : insertRec fuel (d + 1) ns key value with
              | error e =>
                rw [h2] at h
                exact Except.noConfusion h
              | ok ns2 =>
                rw [h2] at h
                simp only [Except.ok.injEq] at h
                rw [← h]
                simp only [getRec]
                rw [hslot2, getD_set_self cs (slotOf key d) _ none hilt, hslot]
                dsimp only
                have hns : WFC ns :=
                  insertRec_wf fuel (d + 1) emptySlots k v ns wfc_empty h1
                have e1 : getRec fuel (d + 1) ns2 key2 = getRec fuel (d + 1) ns key2 :=
                  ih (d + 1) ns key value ns2 key2 hns h2 hne
                by_cases hk2 : k = key2
                · rw [if_pos hk2, e1]
                  subst hk2
                  exact get_insert_same fuel (d + 1) emptySlots k v ns wfc_empty h1
                · rw [if_neg hk2, e1,
                    ih (d + 1) emptySlots k v ns key2 wfc_empty h1
                      (fun hcon => hk2 hcon.symm)]
                  cases fuel with
                  | zero => exact absurd h1 (by simp [insertRec])
                  | succ g => exact getRec_empty g (d + 1) key2
        | internal sub =>
          dsimp only at h
          cases h1 : insertRec fuel (d + 1) sub key value with
          | error e =>
            rw [h1] at h
            exact Except.noConfusion h
          | ok sub2 =>
            rw [h1] at h
            simp only [Except.ok.injEq] at h
            rw [← h]
            simp only [getRec]
            rw [hslot2, getD_set_self cs (slotOf key d) _ none hilt, hslot]
            dsimp only
            exact ih (d + 1) sub key value sub2 key2
              (wfc_of_wft_internal (wft_of_getD hwf hslot)) h1 hne
        | hashed hh =>
          dsimp only at h
          exact Except.noConfusion h

theorem get_insertAll : ∀ (kvs : List (Nat × List Nat))
    (cs t : List (Option VTree)) (key : Nat), WFC cs →
    insertAll kvs cs = .ok t →
    Get t key =
      match lastVal kvs key with
      | some v => .ok v
      | none => Get cs key := by
  intro kvs
  induction kvs with
  | nil =>
    intro cs t key _ h
    simp only [insertAll, Except.ok.injEq] at h
    rw [← h]
    rfl
  | cons kv rest ih =>
    intro cs t key hwf h
    obtain ⟨k, v⟩ := kv
    simp only [insertAll] at h
    cases h1 : Insert cs k v with
    | error e =>
      rw [h1] at h
      exact Except.noConfusion h
    | ok cs2 =>
      rw [h1] at h
      dsimp only at h
      have hwf2 : WFC cs2 := insertRec_wf treeDepth 0 cs k v cs2 hwf h1
      rw [ih cs2 t key hwf2 h]
      simp only [lastVal]
      cases hl : lastVal rest key with
      | some w => rfl
      | none =>
        by_cases hk : k = key
        · simp only [if_pos hk]
          show Get cs2 key = Except.ok v
          subst hk
          exact get_insert_same treeDepth 0 cs k v cs2 hwf h1
        · simp only [if_neg hk]
          show Get cs2 key = Get cs key
          exact get_insert_other treeDepth 0 cs k v cs2 key hwf h1
            (fun hcon => hk hcon.symm)

/-- C6: after any sequence of insertions into a fresh tree, `Get key`
returns the value of the most recent insertion for `key` when one exists and
fails with `errValueNotPresent` (returning no value) when no insertion for
`key` occurred. -/
theorem c6_get_returns_last (kvs : List (Nat × List Nat)) (key : Nat)
    (t : List (Option VTree)) (h : insertAll kvs emptySlots = .ok t) :
    Get t key =
      match lastVal kvs key with
      | some v => .ok v
      | none => .error .valueNotPresent := by
  rw [get_insertAll kvs emptySlots t key wfc_empty h]
  cases lastVal kvs key with
  | some w => rfl
  | none =>
    show Get emptySlots key = _
    exact getRec_empty 25 0 key

theorem c6_witness :
    (Get ((insertAll [(0, [1]), (5, [2])] emptySlots).toOption.getD emptySlots) 5 =
      match lastVal [(0, [1]), (5, [2])] 5 with
      | some v => Except.ok v
      | none => Except.error TErr.valueNotPresent) ∧
    (Get ((insertAll [(0, [1]), (5, [2])] emptySlots).toOption.getD emptySlots) 7 =
      match lastVal [(0, [1]), (5, [2])] 7 with
      | some v => Except.ok v
      | none => Except.error TErr.valueNotPresent) :=
  ⟨c6_get_returns_last [(0, [1]), (5, [2])] 5 _ (by rfl),
   c6_get_returns_last [(0, [1]), (5, [2])] 7 _ (by rfl)⟩

theorem highQuot_eq {m k : Nat} : ∀ (d : Nat), d ≤ 26 →
    (∀ e, e < d → slotOf k e = slotOf m e) → m < 2 ^ 256 → k < 2 ^ 256 →
    k * 16 / 1024 ^ (26 - d) = m * 16 / 1024 ^ (26 - d) := by
  intro d
  induction d with
  | zero =>
    intro _ _ hm hk
    have hbound : (2:Nat) ^ 256 * 16 ≤ 1024 ^ 26 := by norm_num
    rw [Nat.div_eq_of_lt (by omega), Nat.div_eq_of_lt (by omega)]
  | succ d ih =>
    intro hd hpre hm hk
    have hq := ih (by omega) (fun e he => hpre e (by omega)) hm hk
    have hsl := hpre d (by omega)
    have hdd : (1024:Nat) ^ (25 - d) * 1024 = 1024 ^ (26 - d) := by
      rw [← pow_succ]
      congr 1
      omega
    have e1 : k * 16 / 1024 ^ (25 - d) =
        k * 16 / 1024 ^ (26 - d) * 1024 + slotOf k d := by
      have hdm := Nat.div_add_mod (k * 16 / 1024 ^ (25 - d)) 1024
      have hq1 : k * 16 / 1024 ^ (25 - d) / 1024 = k * 16 / 1024 ^ (26 - d) := by
        rw [Nat.div_div_eq_div_mul, hdd]
      unfold slotOf
      omega
    have e2 : m * 16 / 1024 ^ (25 - d) =
        m * 16 / 1024 ^ (26 - d) * 1024 + slotOf m d := by
      have hdm := Nat.div_add_mod (m * 16 / 1024 ^ (25 - d)) 1024
      have hq2 : m * 16 / 1024 ^ (25 - d) / 1024 = m * 16 / 1024 ^ (26 - d) := by
        rw [Nat.div_div_eq_div_mul, hdd]
      unfold slotOf
      omega
    have hexp : 26 - (d + 1) = 25 - d := by omega
    rw [hexp, e1, e2, hq, hsl]

theorem key_eq_of_all_slots {m k : Nat} (hm : m < 2 ^ 256) (hk : k < 2 ^ 256)
    (hpre : ∀ e, e < 26 → slotOf k e = slotOf m e) : k = m := by
  have hq := highQuot_eq 26 le_rfl hpre hm hk
  simp only [Nat.sub_self, pow_zero, Nat.div_one] at hq
  omega

theorem slotOf_mono {m k d : Nat} (hmk : m ≤ k)
    (hpre : ∀ e, e < d → slotOf k e = slotOf m e) (hm : m < 2 ^ 256)
    (hk : k < 2 ^ 256) (hd : d ≤ 25) : slotOf m d ≤ slotOf k d := by
  have hq := highQuot_eq d (by omega) hpre hm hk
  have hdd : (1024:Nat) ^ (25 - d) * 1024 = 1024 ^ (26 - d) := by
    rw [← pow_succ]
    congr 1
    omega
  have h1 := Nat.div_add_mod (k * 16 / 1024 ^ (25 - d)) 1024
  have h2 := Nat.div_add_mod (m * 16 / 1024 ^ (25 - d)) 1024
  have hq1 : k * 16 / 1024 ^ (25 - d) / 1024 = k * 16 / 1024 ^ (26 - d) := by
    rw [Nat.div_div_eq_div_mul, hdd]
  have hq2 : m * 16 / 1024 ^ (25 - d) / 1024 = m * 16 / 1024 ^ (26 - d) := by
    rw [Nat.div_div_eq_div_mul, hdd]
  have huv : m * 16 / 1024 ^ (25 - d) ≤ k * 16 / 1024 ^ (25 - d) :=
    Nat.div_le_div_right (by omega)
  have hma : m * 16 / 1024 ^ (25 - d) % 1024 < 1024 := Nat.mod_lt _ (by norm_num)
  have hkb : k * 16 / 1024 ^ (25 - d) % 1024 < 1024 := Nat.mod_lt _ (by norm_num)
  unfold slotOf
  omega

section TreeSimProofs

variable (commit : List Nat → Nat) (hashPoint : Nat → Nat)
variable (hashLeaf : Nat → List Nat → Nat)

theorem condenseLeftAux_length (i : Nat) :
    ∀ (cs : List (Option VTree)) (off : Nat),
      (condenseLeftAux commit hashPoint hashLeaf off i cs).length = cs.length := by
  intro cs
  induction cs with
  | nil => intro off; rfl
  | cons c cs ih =>
    intro off
    show (_ :: condenseLeftAux commit hashPoint hashLeaf (off + 1) i cs).length = _
    simp only [List.length_cons, ih (off + 1)]

theorem condenseLeft_length (cs : List (Option VTree)) (i : Nat) :
    (condenseLeft commit hashPoint hashLeaf cs i).length = cs.length :=
  condenseLeftAux_length commit hashPoint hashLeaf i cs 0

theorem condenseLeftAux_getD (i : Nat) :
    ∀ (cs : List (Option VTree)) (off j : Nat),
      (condenseLeftAux commit hashPoint hashLeaf off i cs).getD j none =
        if off + j < i then
          condenseChild commit hashPoint hashLeaf (cs.getD j none)
        else cs.getD j none := by
  intro cs
  induction cs with
  | nil =>
    intro off j
    show (none : Option VTree) = if off + j < i then
      condenseChild commit hashPoint hashLeaf none else none
    split <;> rfl
  | cons c cs ih =>
    intro off j
    match j with
    | 0 =>
      show (if off < i then condenseChild commit hashPoint hashLeaf c else c) = _
      simp only [List.getD_cons_zero, Nat.add_zero]
    | j + 1 =>
      show (condenseLeftAux commit hashPoint hashLeaf (off + 1) i cs).getD j none = _
      rw [ih (off + 1) j, show off + 1 + j = off + (j + 1) from by omega]
      rfl

theorem condenseLeft_getD (cs : List (Option VTree)) (i j : Nat) :
    (condenseLeft commit hashPoint hashLeaf cs i).getD j none =
      if j < i then condenseChild commit hashPoint hashLeaf (cs.getD j none)
      else cs.getD j none := by
  have h := condenseLeftAux_getD commit hashPoint hashLeaf i cs 0 j
  simpa using h

theorem childScalars_cons (o : Option VTree) (cs : List (Option VTree)) :
    childScalars commit hashPoint hashLeaf (o :: cs) =
      scalarOfSlot commit hashPoint hashLeaf o ::
        childScalars commit hashPoint hashLeaf cs := by
  cases o <;> rfl

theorem childScalars_congr :
    ∀ (cs cs' : List (Option VTree)), cs.length = cs'.length →
      (∀ j, j < cs.length →
        scalarOfSlot commit hashPoint hashLeaf (cs.getD j none) =
          scalarOfSlot commit hashPoint hashLeaf (cs'.getD j none)) →
      childScalars commit hashPoint hashLeaf cs =
        childScalars commit hashPoint hashLeaf cs' := by
  intro cs
  induction cs with
  | nil =>
    intro cs' hlen _
    cases cs' with
    | nil => rfl
    | cons c cs' => exact absurd hlen (by simp)
  | cons c cs ih =>
    intro cs' hlen hpt
    cases cs' with
    | nil => exact absurd hlen (by simp)
    | cons c' cs' =>
      rw [childScalars_cons, childScalars_cons]
      have hhead := hpt 0 (by simp)
      simp only [List.getD_cons_zero] at hhead
      rw [hhead]
      congr 1
      exact ih cs' (by simpa using hlen)
        (fun j hj => by simpa using hpt (j + 1) (by simpa using hj))

theorem nodeHash_hashed (x : Nat) :
    nodeHash commit hashPoint hashLeaf (.hashed x) = x := rfl

theorem simT_nodeHash {d m : Nat} {t t' : VTree}
    (hs : SimT commit hashPoint hashLeaf d m t t') :
    nodeHash commit hashPoint hashLeaf t' =
      nodeHash commit hashPoint hashLeaf t := by
  induction hs with
  | leaf => rfl
  | internal d m cs cs' hlen hlen' hleft hmidn hmid hright ih =>
    show hashPoint (commit (childScalars commit hashPoint hashLeaf cs')) =
      hashPoint (commit (childScalars commit hashPoint hashLeaf cs))
    have hsc : childScalars commit hashPoint hashLeaf cs =
        childScalars commit hashPoint hashLeaf cs' := by
      apply childScalars_congr
      · rw [hlen, hlen']
      · intro j _
        rcases Nat.lt_trichotomy j (slotOf m d) with hj | hj | hj
        · rcases hleft j hj with ⟨h1, h2⟩ | ⟨u, u', h1, h2, hh⟩
          · rw [h1, h2]
          · rw [h1, h2]
            show nodeHash commit hashPoint hashLeaf u =
              nodeHash commit hashPoint hashLeaf u'
            rw [hh]
        · subst hj
          cases h1 : cs.getD (slotOf m d) none with
          | none =>
            rw [hmidn.mp h1]
          | some u =>
            cases h2 : cs'.getD (slotOf m d) none with
            | none =>
              exact absurd (hmidn.mpr h2) (by rw [h1]; simp)
            | some u' =>
              show nodeHash commit hashPoint hashLeaf u =
                nodeHash commit hashPoint hashLeaf u'
              exact (ih u u' h1 h2).symm
        · rcases hright j hj with ⟨h1, h2⟩
          rw [h1, h2]
    rw [hsc]

theorem simT_childScalars {d m : Nat} {cs cs' : List (Option VTree)}
    (hs : SimT commit hashPoint hashLeaf d m (.internal cs) (.internal cs')) :
    childScalars commit hashPoint hashLeaf cs' =
      childScalars commit hashPoint hashLeaf cs := by
  cases hs with
  | internal _ _ _ _ hlen hlen' hleft hmidn hmid hright =>
    apply childScalars_congr commit hashPoint hashLeaf cs' cs (by rw [hlen, hlen'])
    intro j _
    rcases Nat.lt_trichotomy j (slotOf m d) with hj | hj | hj
    · rcases hleft j hj with ⟨h1, h2⟩ | ⟨u, u', h1, h2, hhash⟩
      · rw [h1, h2]
      · rw [h1, h2]
        show nodeHash commit hashPoint hashLeaf u' =
          nodeHash commit hashPoint hashLeaf u
        exact hhash
    · subst hj
      cases h1 : cs'.getD (slotOf m d) none with
      | none => rw [hmidn.mpr h1]
      | some u' =>
        cases h2 : cs.getD (slotOf m d) none with
        | none => exact absurd (hmidn.mp h2) (by rw [h1]; simp)
        | some u =>
          show nodeHash commit hashPoint hashLeaf u' =
            nodeHash commit hashPoint hashLeaf u
          exact simT_nodeHash commit hashPoint hashLeaf (hmid u u' h2 h1)
    · rcases hright j hj with ⟨h1, h2⟩
      rw [h1, h2]

theorem simT_rootComm {m : Nat} {cs cs' : List (Option VTree)}
    (hs : SimT commit hashPoint hashLeaf 0 m (.internal cs) (.internal cs')) :
    rootComm commit hashPoint hashLeaf cs' =
      rootComm commit hashPoint hashLeaf cs :=
  congrArg commit (simT_childScalars commit hashPoint hashLeaf hs)

theorem simT_internal_lens {d m : Nat} {cs cs' : List (Option VTree)}
    (hs : SimT commit hashPoint hashLeaf d m (.internal cs) (.internal cs')) :
    cs.length = 1024 ∧ cs'.length = 1024 := by
  cases hs with
  | internal _ _ _ _ hlen hlen' _ _ _ _ => exact ⟨hlen, hlen'⟩

theorem simT_internal_left {d m : Nat} {cs cs' : List (Option VTree)}
    (hs : SimT commit hashPoint hashLeaf d m (.internal cs) (.internal cs')) :
    ∀ j, j < slotOf m d →
      (cs.getD j none = none ∧ cs'.getD j none = none) ∨
      ∃ u u', cs.getD j none = some u ∧ cs'.getD j none = some u' ∧
        nodeHash commit hashPoint hashLeaf u' =
          nodeHash commit hashPoint hashLeaf u := by
  cases hs with
  | internal _ _ _ _ _ _ hleft _ _ _ => exact hleft

theorem simT_internal_right {d m : Nat} {cs cs' : List (Option VTree)}
    (hs : SimT commit hashPoint hashLeaf d m (.internal cs) (.internal cs')) :
    ∀ j, slotOf m d < j → cs.getD j none = none ∧ cs'.getD j none = none := by
  cases hs with
  | internal _ _ _ _ _ _ _ _ _ hright => exact hright

theorem simT_internal_slot_none {d m : Nat} {cs cs' : List (Option VTree)}
    (hs : SimT commit hashPoint hashLeaf d m (.internal cs) (.internal cs'))
    (h : cs.getD (slotOf m d) none = none) :
    cs'.getD (slotOf m d) none = none := by
  cases hs with
  | internal _ _ _ _ _ _ _ hmidn _ _ => exact hmidn.mp h

theorem simT_internal_slot_some {d m : Nat} {cs cs' : List (Option VTree)}
    (hs : SimT commit hashPoint hashLeaf d m (.internal cs) (.internal cs'))
    {u : VTree} (h : cs.getD (slotOf m d) none = some u) :
    ∃ u', cs'.getD (slotOf m d) none = some u' ∧
      SimT commit hashPoint hashLeaf (d + 1) m u u' := by
  cases hs with
  | internal _ _ _ _ _ _ _ hmidn hmid _ =>
    cases h2 : cs'.getD (slotOf m d) none with
    | none => exact absurd (hmidn.mpr h2) (by rw [h]; simp)
    | some w => exact ⟨w, rfl, hmid u w h h2⟩

theorem simT_leaf_inv {d m k : Nat} {v : List Nat} {t' : VTree}
    (hs : SimT commit hashPoint hashLeaf d m (.leaf k v) t') :
    t' = .leaf k v ∧ k ≤ m ∧ ∀ e, e < d → slotOf k e = slotOf m e := by
  cases hs with
  | leaf _ _ _ _ hk hpath => exact ⟨rfl, hk, hpath⟩

theorem simT_internal_shape {d m : Nat} {cs : List (Option VTree)} {t' : VTree}
    (hs : SimT commit hashPoint hashLeaf d m (.internal cs) t') :
    ∃ cs2, t' = .internal cs2 := by
  cases hs with
  | internal _ _ _ w _ _ _ _ _ _ => exact ⟨w, rfl⟩

theorem simT_empty (d m : Nat) :
    SimT commit hashPoint hashLeaf d m
      (.internal emptySlots) (.internal emptySlots) := by
  have he : ∀ j, (emptySlots : List (Option VTree)).getD j none = none :=
    fun j => getD_replicate 1024 j none
  refine SimT.internal d m _ _ rfl rfl ?_ Iff.rfl ?_ ?_
  · intro j _
    exact Or.inl ⟨he j, he j⟩
  · intro u u' hu _
    rw [he (slotOf m d)] at hu
    exact Option.noConfusion hu
  · intro j _
    exact ⟨he j, he j⟩

theorem sim_condensed_left {d m : Nat} {cs cs' : List (Option VTree)}
    (hs : SimT commit hashPoint hashLeaf d m (.internal cs) (.internal cs'))
    {s j : Nat} (hms : slotOf m d ≤ s) (hj : j < s) :
    (cs.getD j none = none ∧
      (condenseLeft commit hashPoint hashLeaf cs' s).getD j none = none) ∨
    ∃ u u', cs.getD j none = some u ∧
      (condenseLeft commit hashPoint hashLeaf cs' s).getD j none = some u' ∧
      nodeHash commit hashPoint hashLeaf u' =
        nodeHash commit hashPoint hashLeaf u := by
  rw [condenseLeft_getD, if_pos hj]
  rcases Nat.lt_trichotomy j (slotOf m d) with hjm | hjm | hjm
  · rcases simT_internal_left commit hashPoint hashLeaf hs j hjm with
      ⟨h1, h2⟩ | ⟨u, u', h1, h2, hh⟩
    · left
      refine ⟨h1, ?_⟩
      rw [h2]
      rfl
    · right
      refine ⟨u, .hashed (nodeHash commit hashPoint hashLeaf u'), h1, ?_, ?_⟩
      · rw [h2]
        rfl
      · exact hh
  · subst hjm
    cases h1 : cs.getD (slotOf m d) none with
    | none =>
      left
      refine ⟨rfl, ?_⟩
      rw [simT_internal_slot_none commit hashPoint hashLeaf hs h1]
      rfl
    | some u =>
      obtain ⟨u', h2, hsub⟩ :=
        simT_internal_slot_some commit hashPoint hashLeaf hs h1
      right
      refine ⟨u, .hashed (nodeHash commit hashPoint hashLeaf u'), rfl, ?_, ?_⟩
      · rw [h2]
        rfl
      · rw [nodeHash_hashed commit hashPoint hashLeaf]
        exact simT_nodeHash commit hashPoint hashLeaf hsub
  · rcases simT_internal_right commit hashPoint hashLeaf hs j hjm with ⟨h1, h2⟩
    left
    refine ⟨h1, ?_⟩
    rw [h2]
    rfl

theorem sim_set_at_key {d m key : Nat} {cs cs' : List (Option VTree)}
    (hs : SimT commit hashPoint hashLeaf d m (.internal cs) (.internal cs'))
    (hmono : slotOf m d ≤ slotOf key d) {u2 u2' : VTree}
    (hu : SimT commit hashPoint hashLeaf (d + 1) key u2 u2') :
    SimT commit hashPoint hashLeaf d key
      (.internal (cs.set (slotOf key d) (some u2)))
      (.internal ((condenseLeft commit hashPoint hashLeaf cs' (slotOf key d)).set
        (slotOf key d) (some u2'))) := by
  obtain ⟨hlen, hlen'⟩ := simT_internal_lens commit hashPoint hashLeaf hs
  have hlt : slotOf key d < cs.length := by
    rw [hlen]
    exact slotOf_lt key d
  have hlt' : slotOf key d <
      (condenseLeft commit hashPoint hashLeaf cs' (slotOf key d)).length := by
    rw [condenseLeft_length, hlen']
    exact slotOf_lt key d
  refine SimT.internal d key _ _ ?_ ?_ ?_ ?_ ?_ ?_
  · rw [List.length_set]
    exact hlen
  · rw [List.length_set, condenseLeft_length]
    exact hlen'
  · intro j hj
    rw [getD_set_ne _ _ _ _ _ (by omega), getD_set_ne _ _ _ _ _ (by omega)]
    exact sim_condensed_left commit hashPoint hashLeaf hs hmono hj
  · rw [getD_set_self _ _ _ _ hlt, getD_set_self _ _ _ _ hlt']
    simp
  · intro w w' hw hw'
    rw [getD_set_self _ _ _ _ hlt] at hw
    rw [getD_set_self _ _ _ _ hlt'] at hw'
    simp only [Option.some.injEq] at hw hw'
    rw [← hw, ← hw']
    exact hu
  · intro j hj
    rw [getD_set_ne _ _ _ _ _ (by omega), getD_set_ne _ _ _ _ _ (by omega)]
    refine ⟨(simT_internal_right commit hashPoint hashLeaf hs j (by omega)).1, ?_⟩
    rw [condenseLeft_getD, if_neg (by omega)]
    exact (simT_internal_right commit hashPoint hashLeaf hs j (by omega)).2

theorem sim_insert_empty (fuel d k : Nat) (v : List Nat)
    {ns ms : List (Option VTree)}
    (h : insertRec fuel d emptySlots k v = .ok ns)
    (h' : insertOrderedRec commit hashPoint hashLeaf fuel d emptySlots k v = .ok ms) :
    SimT commit hashPoint hashLeaf d k (.internal ns) (.internal ms) := by
  cases fuel with
  | zero => exact Except.noConfusion h
  | succ fuel =>
    simp only [insertRec] at h
    simp only [insertOrderedRec] at h'
    have he : ∀ j, (emptySlots : List (Option VTree)).getD j none = none :=
      fun j => getD_replicate 1024 j none
    rw [he (slotOf k d)] at h
    have he' : (condenseLeft commit hashPoint hashLeaf emptySlots
        (slotOf k d)).getD (slotOf k d) none = none := by
      rw [condenseLeft_getD, if_neg (lt_irrefl _)]
      exact he _
    rw [he'] at h'
    simp only [Except.ok.injEq] at h h'
    rw [← h, ← h']
    exact sim_set_at_key commit hashPoint hashLeaf
      (simT_empty commit hashPoint hashLeaf d k) le_rfl
      (SimT.leaf (d + 1) k k v le_rfl (fun e _ => rfl))

theorem sim_step : ∀ (fuel d m key : Nat) (value : List Nat)
    (cs cs' ns ns' : List (Option VTree)),
    SimT commit hashPoint hashLeaf d m (.internal cs) (.internal cs') →
    m < key → key < 2 ^ 256 → m < 2 ^ 256 → d + fuel ≤ 26 →
    (∀ e, e < d → slotOf key e = slotOf m e) →
    insertRec fuel d cs key value = .ok ns →
    insertOrderedRec commit hashPoint hashLeaf fuel d cs' key value = .ok ns' →
    SimT commit hashPoint hashLeaf d key (.internal ns) (.internal ns') := by
  intro fuel
  induction fuel with
  | zero =>
    intro d m key value cs cs' ns ns' _ _ _ _ _ _ h _
    exact Except.noConfusion h
  | succ fuel ih =>
    intro d m key value cs cs' ns ns' hs hmk hk hm hd hpath h h'
    have hmono : slotOf m d ≤ slotOf key d :=
      slotOf_mono (le_of_lt hmk) hpath hm hk (by omega)
    simp only [insertRec] at h
    simp only [insertOrderedRec] at h'
    have hcsl : (condenseLeft commit hashPoint hashLeaf cs'
        (slotOf key d)).getD (slotOf key d) none =
        cs'.getD (slotOf key d) none := by
      rw [condenseLeft_getD]
      exact if_neg (lt_irrefl _)
    rw [hcsl] at h'
    cases hslot : cs.getD (slotOf key d) none with
    | none =>
      rw [hslot] at h
      simp only [Except.ok.injEq] at h
      have hslot' : cs'.getD (slotOf key d) none = none := by
        rcases eq_or_lt_of_le hmono with heq | hlt
        · rw [← heq]
          exact simT_internal_slot_none commit hashPoint hashLeaf hs
            (by rw [heq]; exact hslot)
        · exact (simT_internal_right commit hashPoint hashLeaf hs _ hlt).2
      rw [hslot'] at h'
      simp only [Except.ok.injEq] at h'
      rw [← h, ← h']
      exact sim_set_at_key commit hashPoint hashLeaf hs hmono
        (SimT.leaf (d + 1) key key value le_rfl (fun e _ => rfl))
    | some u =>
      rw [hslot] at h
      have heq : slotOf m d = slotOf key d := by
        rcases eq_or_lt_of_le hmono with heq | hlt
        · exact heq
        · exact absurd hslot (by
            rw [(simT_internal_right commit hashPoint hashLeaf hs _ hlt).1]
            simp)
      obtain ⟨u', hslot', hsub⟩ :=
        simT_internal_slot_some commit hashPoint hashLeaf hs
          (by rw [heq]; exact hslot)
      rw [heq] at hslot'
      rw [hslot'] at h'
      cases u with
      | leaf k2 v2 =>
        obtain ⟨rfl, hk2m, hpath2⟩ := simT_leaf_inv commit hashPoint hashLeaf hsub
        dsimp only at h h'
        have hne : k2 ≠ key := by omega
        rw [if_neg hne] at h h'
        cases h1 : insertRec fuel (d + 1) emptySlots k2 v2 with
        | error e =>
          rw [h1] at h
          exact Except.noConfusion h
        | ok ns0 =>
          rw [h1] at h
          dsimp only at h
          cases h1' : insertOrderedRec commit hashPoint hashLeaf fuel (d + 1)
              emptySlots k2 v2 with
          | error e =>
            rw [h1'] at h'
            exact Except.noConfusion h'
          | ok ms0 =>
            rw [h1'] at h'
            dsimp only at h'
            cases h2 : insertRec fuel (d + 1) ns0 key value with
            | error e =>
              rw [h2] at h
              exact Except.noConfusion h
            | ok ns2 =>
              rw [h2] at h
              cases h2' : insertOrderedRec commit hashPoint hashLeaf fuel (d + 1)
                  ms0 key value with
              | error e =>
                rw [h2'] at h'
                exact Except.noConfusion h'
              | ok ms2 =>
                rw [h2'] at h'
                simp only [Except.ok.injEq] at h h'
                rw [← h, ← h']
                have hsim0 :=
                  sim_insert_empty commit hashPoint hashLeaf fuel (d + 1) k2 v2 h1 h1'
                have hpathk : ∀ e, e < d + 1 → slotOf key e = slotOf k2 e := by
                  intro e he
                  rcases Nat.lt_or_ge e d with hed | hed
                  · rw [hpath e hed, ← hpath2 e (by omega)]
                  · have hed2 : e = d := by omega
                    subst hed2
                    rw [← heq]
                    exact (hpath2 e (by omega)).symm
                have hsim2 := ih (d + 1) k2 key value ns0 ms0 ns2 ms2 hsim0
                  (by omega) hk (by omega) (by omega) hpathk h2 h2'
                exact sim_set_at_key commit hashPoint hashLeaf hs hmono hsim2
      | internal sub =>
        obtain ⟨sub', rfl⟩ := simT_internal_shape commit hashPoint hashLeaf hsub
        dsimp only at h h'
        cases h1 : insertRec fuel (d + 1) sub key value with
        | error e =>
          rw [h1] at h
          exact Except.noConfusion h
        | ok sub2 =>
          rw [h1] at h
          cases h1' : insertOrderedRec commit hashPoint hashLeaf fuel (d + 1)
              sub' key value with
          | error e =>
            rw [h1'] at h'
            exact Except.noConfusion h'
          | ok sub2' =>
            rw [h1'] at h'
            simp only [Except.ok.injEq] at h h'
            rw [← h, ← h']
            have hpathm : ∀ e, e < d + 1 → slotOf key e = slotOf m e := by
              intro e he
              rcases Nat.lt_or_ge e d with hed | hed
              · exact hpath e hed
              · have hed2 : e = d := by omega
                subst hed2
                exact heq.symm
            have hsim2 := ih (d + 1) m key value sub sub' sub2 sub2' hsub
              hmk hk hm (by omega) hpathm h1 h1'
            exact sim_set_at_key commit hashPoint hashLeaf hs hmono hsim2
      | hashed x =>
        dsimp only at h
        exact Except.noConfusion h

theorem sim_fold : ∀ (kvs : List (Nat × List Nat)) (m : Nat)
    (cs cs' ns ns' : List (Option VTree)),
    List.Pairwise (fun a b : Nat × List Nat => a.1 < b.1) kvs →
    (∀ kv ∈ kvs, m < kv.1 ∧ kv.1 < 2 ^ 256) → m < 2 ^ 256 →
    SimT commit hashPoint hashLeaf 0 m (.internal cs) (.internal cs') →
    insertAll kvs cs = .ok ns →
    insertOrderedAll commit hashPoint hashLeaf kvs cs' = .ok ns' →
    ∃ m2, SimT commit hashPoint hashLeaf 0 m2 (.internal ns) (.internal ns') := by
  intro kvs
  induction kvs with
  | nil =>
    intro m cs cs' ns ns' _ _ _ hs h h'
    simp only [insertAll] at h
    simp only [insertOrderedAll] at h'
    simp only [Except.ok.injEq] at h h'
    rw [← h, ← h']
    exact ⟨m, hs⟩
  | cons kv rest ih =>
    intro m cs cs' ns ns' hsort hgt hm hs h h'
    obtain ⟨k, v⟩ := kv
    simp only [insertAll] at h
    simp only [insertOrderedAll] at h'
    cases h1 : Insert cs k v with
    | error e =>
      rw [h1] at h
      exact Except.noConfusion h
    | ok cs2 =>
      rw [h1] at h
      dsimp only at h
      cases h1' : InsertOrdered commit hashPoint hashLeaf cs' k v with
      | error e =>
        rw [h1'] at h'
        exact Except.noConfusion h'
      | ok cs2' =>
        rw [h1'] at h'
        dsimp only at h'
        have hkb := hgt (k, v) (List.mem_cons_self _ _)
        have hstep := sim_step commit hashPoint hashLeaf treeDepth 0 m k v
          cs cs' cs2 cs2' hs hkb.1 hkb.2 hm (by decide)
          (fun e he => absurd he (Nat.not_lt_zero e)) h1 h1'
        cases hsort with
        | cons hhead htail =>
          exact ih k cs2 cs2' ns ns' htail
            (fun kv2 hkv2 => ⟨hhead kv2 hkv2,
              (hgt kv2 (List.mem_cons_of_mem _ hkv2)).2⟩)
            hkb.2 hstep h h'

end TreeSimProofs

/-- C5: for every strictly increasing sequence of keys (each below `2 ^ 256`,
the range of 32-byte keys) with values, if inserting them all with the plain
`Insert` engine and with the `InsertOrdered` engine both succeed from a fresh
root, the two resulting trees have exactly the same root commitment
(`ComputeCommitment`), for every choice of the commitment, point-hash and
leaf-hash functions. -/
theorem c5_ordered_eq_insert (commit : List Nat → Nat) (hashPoint : Nat → Nat)
    (hashLeaf : Nat → List Nat → Nat) (kvs : List (Nat × List Nat))
    (hsort : List.Pairwise (fun a b : Nat × List Nat => a.1 < b.1) kvs)
    (hbound : ∀ kv ∈ kvs, kv.1 < 2 ^ 256) (ns ns' : List (Option VTree))
    (h : insertAll kvs emptySlots = .ok ns)
    (h' : insertOrderedAll commit hashPoint hashLeaf kvs emptySlots = .ok ns') :
    rootComm commit hashPoint hashLeaf ns' =
      rootComm commit hashPoint hashLeaf ns := by
  cases kvs with
  | nil =>
    simp only [insertAll] at h
    simp only [insertOrderedAll] at h'
    simp only [Except.ok.injEq] at h h'
    rw [← h, ← h']
  | cons kv rest =>
    obtain ⟨k, v⟩ := kv
    simp only [insertAll] at h
    simp only [insertOrderedAll] at h'
    cases h1 : Insert emptySlots k v with
    | error e =>
      rw [h1] at h
      exact Except.noConfusion h
    | ok cs2 =>
      rw [h1] at h
      dsimp only at h
      cases h1' : InsertOrdered commit hashPoint hashLeaf emptySlots k v with
      | error e =>
        rw [h1'] at h'
        exact Except.noConfusion h'
      | ok cs2' =>
        rw [h1'] at h'
        dsimp only at h'
        have hsim1 : SimT commit hashPoint hashLeaf 0 k
            (.internal cs2) (.internal cs2') :=
          sim_insert_empty commit hashPoint hashLeaf treeDepth 0 k v h1 h1'
        cases hsort with
        | cons hhead htail =>
          obtain ⟨m2, hsim⟩ := sim_fold commit hashPoint hashLeaf rest k
            cs2 cs2' ns ns' htail
            (fun kv2 hkv2 => ⟨hhead kv2 hkv2,
              hbound kv2 (List.mem_cons_of_mem _ hkv2)⟩)
            (hbound (k, v) (List.mem_cons_self _ _)) hsim1 h h'
          exact simT_rootComm commit hashPoint hashLeaf hsim

/-- Witness for C5: the equivalence applied to the concrete sorted two-key
sequence `c5kvs` under the concrete commitment functions, both insertion
engines evaluated by the kernel. -/
theorem c5_witness :
    rootComm c5commit c5hashPoint c5hashLeaf c5ns' =
      rootComm c5commit c5hashPoint c5hashLeaf c5ns :=
  c5_ordered_eq_insert c5commit c5hashPoint c5hashLeaf c5kvs
    (by decide) (by decide) c5ns c5ns' (by rfl) (by rfl)

/-- C8: applying the hash-to-field reduction to the 32-byte test vector
(which ends in a zero byte) gives the same scalar-field element as the
canonical `FrFrom32` decoding of the same bytes: its little-endian value is
below the scalar modulus, so the reduction is the identity and the write-back
through a zero-filled buffer reproduces the input bytes. -/
theorem c8_hash_to_fr :
    hashToFr c8input = frFrom32 c8input ∧
    c8input.getLast? = some 0 ∧ c8input.length = 32 := by
  refine ⟨by decide, rfl, rfl⟩

/-- C4 counterexample: serializing `c4bad` — an internal node whose slot 0
holds a nested internal node — and parsing the result back fails with
`ErrExpectedString` instead of reproducing the node's structure, refuting the
claim that the round trip preserves all internal-node structure up to caches. -/
theorem c4_counterexample :
    ParseNode (serializeNode c4bad) = .error .expectedString := rfl

end Verkle
